import Mathlib

/-!
Verification of the jaesve JSON-flattening engine against its design document.

The development shallowly embeds the program's live pipeline
(`src/main.rs` → `src/models.rs`) and the auxiliary flattener/scanner module
(`src/models/assets.rs`):

* `Json` — the parsed JSON value tree (`serde_json::Value`); JSON numbers are
  modelled as integers (their canonical decimal rendering is what the claims
  depend on; floating-point text is out of scope).
* `parse_json` — `JsonPacket::parse_json` (models.rs, lines 262-296), the
  iterative FIFO flattener producing the pointer list.
* `resolve` — `serde_json::Value::pointer`, the RFC 6901 lookup used by
  `JsonPacket::print` (an external collaborator of the core, embedded from its
  published implementation: split on slash, unescape tilde-1 then tilde-0,
  strict index parsing without leading zeros or plus sign).
* `formatLine` / `writeEffect` — `write` (models.rs, lines 154-220).
* `runLoop` / `parse_next` / `parseNextAll` — `JsonPointer::parse_next`
  (assets.rs, lines 414-492) and its Iterator instance.
* `scanStep` / `scanRun` — `JsonScan` (assets.rs, lines 301-390).
* `mainRun` — the configuration guard of `main` (main.rs, lines 73-77) and the
  sequencing of the stdin line-mode pipeline of `to_csv` (models.rs, 116-149).
-/

/-- The parsed JSON value tree (`serde_json::Value`). Object member lists keep
the parsed document's key order; numbers are modelled as integers. -/
inductive Json where
  | null : Json
  | bool (b : Bool) : Json
  | num (n : Int) : Json
  | str (s : String) : Json
  | arr (elems : List Json) : Json
  | obj (members : List (String × Json)) : Json

mutual
/-- Structural size of a JSON value: one per node. Used as the termination
measure of the queue-based traversals. -/
def jsize : Json → Nat
  | Json.arr xs => 1 + jsizeL xs
  | Json.obj kvs => 1 + jsizeM kvs
  | _ => 1
def jsizeL : List Json → Nat
  | [] => 0
  | x :: xs => jsize x + jsizeL xs
def jsizeM : List (String × Json) → Nat
  | [] => 0
  | kv :: kvs => jsize kv.2 + jsizeM kvs
end

/-- `Value::is_object`. -/
def isObjB : Json → Bool
  | Json.obj _ => true
  | _ => false

/-- `Value::is_array`. -/
def isArrB : Json → Bool
  | Json.arr _ => true
  | _ => false

/-- A JSON container (object or array), as in the glossary of the design. -/
def isContainerB (v : Json) : Bool := isObjB v || isArrB v

/-- Decimal digits of a natural number, most significant first; models the
digit loop behind Rust's `usize::to_string` (no sign, no leading zeros). -/
def natDigits (n : Nat) : List Char :=
  if n < 10 then [Nat.digitChar n]
  else natDigits (n / 10) ++ [Nat.digitChar (n % 10)]
termination_by n
decreasing_by
  exact Nat.div_lt_self (by omega) (by omega)

/-- Rust `usize::to_string` / `i.to_string()` on array indices: canonical
decimal text. -/
def natToString (n : Nat) : String := String.mk (natDigits n)

/-- Rust `i64` `Display`, used for `Number::to_string` on the integral numbers
we model. -/
def intToString (n : Int) : String :=
  if n < 0 then "-" ++ natToString n.natAbs else natToString n.natAbs

/-- The `JType` enum of assets.rs (lines 203-211). -/
inductive JType where
  | Object : JType
  | Array : JType
  | String : JType
  | Number : JType
  | Bool : JType
  | Null : JType
deriving DecidableEq

/-- `impl From<&JsonValue> for JType` (assets.rs, lines 226-237). -/
def jtypeOf : Json → JType
  | Json.obj _ => JType.Object
  | Json.arr _ => JType.Array
  | Json.str _ => JType.String
  | Json.num _ => JType.Number
  | Json.bool _ => JType.Bool
  | Json.null => JType.Null

/-- `impl Display for JType` (assets.rs, lines 239-252). -/
def jtypeName : JType → String
  | JType.Object => "Object"
  | JType.Array => "Array"
  | JType.String => "String"
  | JType.Number => "Number"
  | JType.Bool => "Bool"
  | JType.Null => "Null"

/-- The value column computed by `write` (models.rs, lines 158-166): containers
render as the empty string, `None` (a failed pointer lookup) renders as the
`NO_VALUE` placeholder, a JSON null renders as `NULL`. -/
def renderValue : Option Json → String
  | some (Json.obj _) => ""
  | some (Json.arr _) => ""
  | some (Json.str s) => s
  | some (Json.num n) => intToString n
  | some (Json.bool b) => if b then "true" else "false"
  | some Json.null => "NULL"
  | none => "NO_VALUE"

/-- The type column computed by `write` (models.rs, lines 170-180). -/
def typeNameWrite : Option Json → String
  | some (Json.obj _) => "Map"
  | some (Json.arr _) => "Array"
  | some (Json.str _) => "String"
  | some (Json.num _) => "Number"
  | some (Json.bool _) => "Bool"
  | some Json.null => "Null"
  | none => "NO_TYPE"

/-- The formatting options consumed by `write` (a slice of the `Options`
struct of models.rs; the remaining CLI fields are not read by the embedded
code paths). -/
structure Options where
  hide_type : Bool
  separator : String
  regex : String
  multi_documents : Option Int

/-- The `formated_output` string assembled by `write` (models.rs, lines
167-189): each field wrapped in literal double quotes, separated by the
configured separator; the type column only when `!hide_type`. -/
def formatLine (options : Options) (entry : String) (val : Option Json) : String :=
  let show_type := !options.hide_type
  let value := renderValue val
  if show_type then
    "\"" ++ entry ++ "\"" ++ options.separator ++ "\"" ++ typeNameWrite val
      ++ "\"" ++ options.separator ++ "\"" ++ value ++ "\""
  else
    "\"" ++ entry ++ "\"" ++ options.separator ++ "\"" ++ value ++ "\""

/-- The effect of `write` (models.rs, lines 154-220) on the output sink,
modelled as the list of lines written so far. The function assembles
`formated_output`, but the entire block that would filter by regex and call
`writeln!` (lines 190-219) is commented out in the source, so the sink is
returned unchanged and the assembled line is discarded. -/
def writeEffect (options : Options) (entry : String) (val : Option Json)
    (output : List String) : List String :=
  let _formated_output := formatLine options entry val
  output

/-- Total structural size of the values sitting in a traversal queue. -/
def queueSize (q : List (Json × String)) : Nat := (q.map (fun e => jsize e.1)).sum

theorem jsizeL_eq (xs : List Json) : jsizeL xs = (xs.map jsize).sum := by
  induction xs with
  | nil => simp [jsizeL]
  | cons x xs ih => simp [jsizeL, ih]

theorem jsizeM_eq (kvs : List (String × Json)) :
    jsizeM kvs = (kvs.map (fun kv => jsize kv.2)).sum := by
  induction kvs with
  | nil => simp [jsizeM]
  | cons kv kvs ih => simp [jsizeM, ih]

theorem jsize_pos (v : Json) : 0 < jsize v := by
  cases v <;> simp [jsize]

theorem queueSize_append (q r : List (Json × String)) :
    queueSize (q ++ r) = queueSize q + queueSize r := by
  simp [queueSize]

theorem queueSize_cons (e : Json × String) (q : List (Json × String)) :
    queueSize (e :: q) = jsize e.1 + queueSize q := by
  simp [queueSize]

theorem queueSize_obj_children (map : List (String × Json)) (s : String) :
    queueSize (map.map fun kv => (kv.2, s ++ "/" ++ kv.1)) = jsizeM map := by
  rw [jsizeM_eq]
  simp only [queueSize, List.map_map]
  rfl

theorem queueSize_arr_children (a : List Json) (s : String) :
    queueSize (a.enum.map fun iv => (iv.2, s ++ "/" ++ natToString iv.1)) = jsizeL a := by
  have h2 : a.enum.map (jsize ∘ Prod.snd) = a.map jsize := by
    rw [← List.map_map, List.enum_map_snd]
  simp only [queueSize, List.map_map]
  calc (List.map ((fun e : Json × String => jsize e.1)
          ∘ fun iv : Nat × Json => (iv.2, s ++ "/" ++ natToString iv.1)) a.enum).sum
      = (a.enum.map (jsize ∘ Prod.snd)).sum := rfl
    _ = (a.map jsize).sum := by rw [h2]
    _ = jsizeL a := (jsizeL_eq a).symm

/-- `JsonPacket::parse_json` (models.rs, lines 262-296): the iterative
traversal over a FIFO work queue. Popping an object pushes a pointer for each
container-valued member and enqueues every member; popping an array enqueues
its elements under their decimal indices; popping a leaf pushes its pointer. -/
def parseJsonAux : List (Json × String) → List String
  | [] => []
  | (Json.obj map, s) :: q =>
      ((map.map (fun kv =>
        (if isObjB kv.2 then [s ++ "/" ++ kv.1] else [])
          ++ (if isArrB kv.2 then [s ++ "/" ++ kv.1] else []))).flatten)
        ++ parseJsonAux (q ++ map.map (fun kv => (kv.2, s ++ "/" ++ kv.1)))
  | (Json.arr a, s) :: q =>
      parseJsonAux (q ++ a.enum.map (fun iv => (iv.2, s ++ "/" ++ natToString iv.1)))
  | (Json.str _, s) :: q => s :: parseJsonAux q
  | (Json.num _, s) :: q => s :: parseJsonAux q
  | (Json.bool _, s) :: q => s :: parseJsonAux q
  | (Json.null, s) :: q => s :: parseJsonAux q
termination_by q => queueSize q
decreasing_by
  all_goals simp only [queueSize_append, queueSize_cons, queueSize_obj_children,
    queueSize_arr_children, jsize]
  all_goals omega

/-- The pointer list (`plist`) a `JsonPacket` is built with: the queue is
seeded with the whole document under the empty base path. -/
def parse_json (d : Json) : List String := parseJsonAux [(d, "")]

/-- Rust `str::split` on the slash character, over the character list of the
pointer: every slash separates pieces, empty pieces are kept, and the empty
input yields one empty piece. Used by the embedded `serde_json::Value::pointer`. -/
def splitSlash : List Char → List (List Char)
  | [] => [[]]
  | c :: rest =>
    if c = '/' then [] :: splitSlash rest
    else
      match splitSlash rest with
      | piece :: pieces => (c :: piece) :: pieces
      | [] => [[c]]

/-- Rust `String::replace` of the two-character sequence tilde-one by a slash
(left to right, non-overlapping), from `Value::pointer`'s token unescaping. -/
def replaceTilde1 : List Char → List Char
  | '~' :: '1' :: rest => '/' :: replaceTilde1 rest
  | c :: rest => c :: replaceTilde1 rest
  | [] => []

/-- Rust `String::replace` of the two-character sequence tilde-zero by a tilde
(left to right, non-overlapping), from `Value::pointer`'s token unescaping. -/
def replaceTilde0 : List Char → List Char
  | '~' :: '0' :: rest => '~' :: replaceTilde0 rest
  | c :: rest => c :: replaceTilde0 rest
  | [] => []

/-- Rust `str::parse::<usize>` on a pointer token: nonempty all-digit text
(sign handling is subsumed by `parse_index`'s own leading-plus rejection);
arbitrary precision stands in for the machine-word range. -/
def parseNatChars (cs : List Char) : Option Nat :=
  if cs ≠ [] ∧ cs.all (fun c => c.isDigit) then
    some (cs.foldl (fun a c => 10 * a + (c.toNat - '0'.toNat)) 0)
  else none

/-- `serde_json`'s `parse_index`: reject a leading plus sign and any extra
leading zero, then parse the decimal index. -/
def parse_index (t : List Char) : Option Nat :=
  if t.head? = some '+' ∨ (t.head? = some '0' ∧ t.length ≠ 1) then none
  else parseNatChars t

/-- `serde_json::Map::get`: first (and with unique keys, only) member whose
key equals the token. -/
def objGet : List (String × Json) → List Char → Option Json
  | [], _ => none
  | (k, v) :: rest, t => if k.data = t then some v else objGet rest t

/-- The `try_fold` of `Value::pointer`: walk the unescaped tokens, descending
through object members and array indices; any other shape fails. -/
def resolveGo : Json → List (List Char) → Option Json
  | j, [] => some j
  | Json.obj map, t :: ts => (objGet map t).bind (fun v => resolveGo v ts)
  | Json.arr xs, t :: ts =>
    ((parse_index t).bind (fun i => xs.get? i)).bind (fun v => resolveGo v ts)
  | _, _ :: _ => none

/-- `serde_json::Value::pointer`, the lookup used by `JsonPacket::print`
(models.rs, line 255): empty pointer resolves to the whole document, anything
not starting with a slash fails, otherwise the slash-separated tokens are
unescaped (tilde-one then tilde-zero) and walked. -/
def resolve (j : Json) (pointer : String) : Option Json :=
  if pointer = "" then some j
  else if pointer.data.head? ≠ some '/' then none
  else resolveGo j (((splitSlash pointer.data).drop 1).map
    (fun t => replaceTilde0 (replaceTilde1 t)))

/-- `JsonPacket::print` (models.rs, lines 253-258), seen as the sequence of
(entry, looked-up value) pairs handed to `write`, in `plist` order. -/
def printCalls (d : Json) : List (String × Option Json) :=
  (parse_json d).map (fun entry => (entry, resolve d entry))

/-- The cumulative effect of `JsonPacket::print` on the output sink: one
`write` per pointer entry, in order. -/
def printSink (options : Options) (d : Json) (output : List String) : List String :=
  (parse_json d).foldl (fun out entry => writeEffect options entry (resolve d entry) out) output

/-- The stdin multi-document arm of `to_csv` (models.rs, lines 127-139): each
line is read then parsed upstream, so the stream is modelled post-parse as
`Option Json` per line (`none` is a line whose `serde_json::from_str` failed,
dropped by `filter_map(.. data.ok())`; read errors are likewise dropped
before that). Every surviving document is flattened and printed. -/
def toCsvStdinMulti (options : Options) (lines : List (Option Json))
    (output : List String) : List String :=
  (lines.filterMap id).foldl (fun out value => printSink options value out) output

/-- The slice of clap's `ArgMatches` consulted by the embedded part of `main`:
whether the type-hiding flag is present, the regex-column value, and the
separator. Command-line parsing itself is an external collaborator. -/
structure CliMatches where
  typePresent : Bool
  regexColumn : Option String
  separator : String

/-- The `Options` assembled by `main` from the matches (show_type is the
negation of the type flag). -/
def optionsOf (m : CliMatches) : Options :=
  { hide_type := m.typePresent, separator := m.separator, regex := ".*",
    multi_documents := some 0 }

/-- `main` (main.rs, lines 73-166) restricted to the embedded stdin line-mode
pipeline: lines 73-77 check the configuration first — if the type flag is
present and the regex column is set to the type column, the program panics
(modelled as `none`) before the writer is created (line 123) or any input is
read (lines 128-166); otherwise processing proceeds and yields the sink. -/
def mainRun (m : CliMatches) (stdinLines : List (Option Json)) : Option (List String) :=
  if m.typePresent && (m.regexColumn == some "type") then none
  else some (toCsvStdinMulti (optionsOf m) stdinLines [])

/-- An `OutputBuilder` as populated by `JsonPointer::parse_next` (assets.rs):
identifier, pointer, value and type blocks (the delimiter block is never set
there). -/
structure Rec where
  ident : Nat
  pointer : String
  value : Option String
  jtype : JType
deriving DecidableEq

/-- The body of `JsonPointer::parse_next`'s `loop` (assets.rs, lines 415-490),
run until a `break`: popping an object pushes, for each container-valued
member, a builder with the member's pointer, no value, and the type of the
popped parent value (the enclosing object), then enqueues every member;
popping an array only enqueues its elements; popping a leaf pushes its
builder and breaks; an empty queue breaks. Returns the queue and push
buffer (`pbuf`) at the break. -/
def runLoop (ident : Nat) :
    List (Json × String) → List Rec → List (Json × String) × List Rec
  | [], pbuf => ([], pbuf)
  | (Json.obj map, s) :: q, pbuf =>
      runLoop ident (q ++ map.map (fun kv => (kv.2, s ++ "/" ++ kv.1)))
        (pbuf ++ (map.map (fun kv =>
          (if isObjB kv.2 then
            [Rec.mk ident (s ++ "/" ++ kv.1) none (jtypeOf (Json.obj map))] else [])
          ++ (if isArrB kv.2 then
            [Rec.mk ident (s ++ "/" ++ kv.1) none (jtypeOf (Json.obj map))] else []))).flatten)
  | (Json.arr a, s) :: q, pbuf =>
      runLoop ident (q ++ a.enum.map (fun iv => (iv.2, s ++ "/" ++ natToString iv.1))) pbuf
  | (Json.str v, s) :: q, pbuf =>
      (q, pbuf ++ [Rec.mk ident s (some v) (jtypeOf (Json.str v))])
  | (Json.num v, s) :: q, pbuf =>
      (q, pbuf ++ [Rec.mk ident s (some (intToString v)) (jtypeOf (Json.num v))])
  | (Json.bool v, s) :: q, pbuf =>
      (q, pbuf ++ [Rec.mk ident s (some (if v then "true" else "false"))
        (jtypeOf (Json.bool v))])
  | (Json.null, s) :: q, pbuf =>
      (q, pbuf ++ [Rec.mk ident s (some "null") (jtypeOf Json.null)])
termination_by q _ => queueSize q
decreasing_by
  all_goals simp only [queueSize_append, queueSize_cons, queueSize_obj_children,
    queueSize_arr_children, jsize]
  all_goals omega

/-- One call of `JsonPointer::parse_next` (assets.rs, lines 414-492): run the
loop to its break, then `pbuf.pop()` — the buffer behaves as a stack, so the
most recently pushed builder is returned and removed. -/
def parse_next (ident : Nat) (st : List (Json × String) × List Rec) :
    Option Rec × (List (Json × String) × List Rec) :=
  let st2 := runLoop ident st.1 st.2
  (st2.2.getLast?, (st2.1, st2.2.dropLast))

theorem runLoop_queueSize_le (ident : Nat) (q : List (Json × String)) (pbuf : List Rec) :
    queueSize (runLoop ident q pbuf).1 ≤ queueSize q := by
  induction q, pbuf using runLoop.induct ident with
  | case1 pbuf => simp [runLoop]
  | case2 map s q pbuf ih =>
    refine le_trans (by simpa [runLoop] using ih) ?_
    simp only [queueSize_append, queueSize_cons, queueSize_obj_children, jsize]
    omega
  | case3 a s q pbuf ih =>
    refine le_trans (by simpa [runLoop] using ih) ?_
    simp only [queueSize_append, queueSize_cons, queueSize_arr_children, jsize]
    omega
  | case4 v s q pbuf => simp [runLoop, queueSize_cons, jsize]
  | case5 v s q pbuf => simp [runLoop, queueSize_cons, jsize]
  | case6 v s q pbuf => simp [runLoop, queueSize_cons, jsize]
  | case7 s q pbuf => simp [runLoop, queueSize_cons, jsize]

theorem runLoop_queueSize_lt (ident : Nat) (e : Json × String)
    (q : List (Json × String)) (pbuf : List Rec) :
    queueSize (runLoop ident (e :: q) pbuf).1 < queueSize (e :: q) := by
  obtain ⟨v, s⟩ := e
  cases v with
  | obj map =>
    have h1 : queueSize (runLoop ident ((Json.obj map, s) :: q) pbuf).1
        ≤ queueSize (q ++ map.map (fun kv => (kv.2, s ++ "/" ++ kv.1))) := by
      rw [runLoop]
      exact runLoop_queueSize_le _ _ _
    refine lt_of_le_of_lt h1 ?_
    simp only [queueSize_append, queueSize_cons, queueSize_obj_children, jsize]
    omega
  | arr a =>
    have h1 : queueSize (runLoop ident ((Json.arr a, s) :: q) pbuf).1
        ≤ queueSize (q ++ a.enum.map (fun iv => (iv.2, s ++ "/" ++ natToString iv.1))) := by
      rw [runLoop]
      exact runLoop_queueSize_le _ _ _
    refine lt_of_le_of_lt h1 ?_
    simp only [queueSize_append, queueSize_cons, queueSize_arr_children, jsize]
    omega
  | str v =>
    simp only [runLoop, queueSize_cons, jsize]
    omega
  | num v =>
    simp only [runLoop, queueSize_cons, jsize]
    omega
  | bool v =>
    simp only [runLoop, queueSize_cons, jsize]
    omega
  | null =>
    simp only [runLoop, queueSize_cons, jsize]
    omega

theorem runLoop_nil (ident : Nat) (pbuf : List Rec) :
    runLoop ident [] pbuf = ([], pbuf) := by
  simp [runLoop]

/-- A successful `parse_next` shrinks the state lexicographically: either the
queue got smaller, or the queue was already empty and a builder was popped. -/
theorem parse_next_lex (ident : Nat) (st : List (Json × String) × List Rec)
    (r : Rec) (st2 : List (Json × String) × List Rec)
    (h : parse_next ident st = (some r, st2)) :
    queueSize st2.1 < queueSize st.1 ∨
      (queueSize st2.1 = queueSize st.1 ∧ st2.2.length < st.2.length) := by
  obtain ⟨q, pbuf⟩ := st
  cases q with
  | nil =>
    right
    simp only [parse_next, runLoop_nil] at h
    have hr : pbuf.getLast? = some r := congrArg Prod.fst h
    have hne : pbuf ≠ [] := by
      intro hnil
      rw [hnil] at hr
      simp at hr
    have hst2 : st2 = ([], pbuf.dropLast) := (congrArg Prod.snd h).symm
    rw [hst2]
    constructor
    · rfl
    · simp only [List.length_dropLast]
      have := List.length_pos.mpr hne
      omega
  | cons e q =>
    left
    have hst2 : st2 = ((runLoop ident (e :: q) pbuf).1,
        (runLoop ident (e :: q) pbuf).2.dropLast) := (congrArg Prod.snd h).symm
    rw [hst2]
    exact runLoop_queueSize_lt ident e q pbuf

/-- Draining the `Iterator` implementation of `JsonPointer` (assets.rs, lines
495-501): repeatedly call `parse_next`, collecting the yielded builders until
the first `None`. -/
def parseNextIter (ident : Nat) (st : List (Json × String) × List Rec) : List Rec :=
  match h : parse_next ident st with
  | (none, _) => []
  | (some r, st2) => r :: parseNextIter ident st2
termination_by (queueSize st.1, st.2.length)
decreasing_by
  rcases parse_next_lex ident st r st2 h with hlt | ⟨heq, hlen⟩
  · exact Prod.Lex.left _ _ hlt
  · rw [heq]
    exact Prod.Lex.right _ hlen

/-- The full record sequence produced by a `JsonPointer` built by
`JsonPointer::new` (assets.rs, lines 398-412): queue seeded with the document
under its base path, empty push buffer. -/
def parseNextAll (ident : Nat) (base : String) (d : Json) : List Rec :=
  parseNextIter ident ([(d, base)], [])

/-- `ScanState` (assets.rs, lines 386-390). -/
inductive ScanState where
  | InQuotes : ScanState
  | OutQuotes : ScanState
deriving DecidableEq

/-- The mutable state of a `JsonScan` (assets.rs, lines 301-307): the
previously seen byte (`None` after a read error or before any byte), the
quote state, and the two counters `(InQuotes offset, OutQuotes offset)`.
Bytes are modelled as natural numbers; the quote byte is 34 and the
backslash byte is 92. -/
structure JsonScanState where
  prev : Option Nat
  state : ScanState
  offsets : Nat × Nat
deriving DecidableEq

/-- `JsonScan::new` (assets.rs, lines 313-320). -/
def initScan : JsonScanState :=
  { prev := none, state := ScanState.OutQuotes, offsets := (0, 0) }

/-- `JsonScan::outside_quotes` (assets.rs, lines 322-327). -/
def outside_quotes (st : JsonScanState) : Bool :=
  match st.state with
  | ScanState.OutQuotes => true
  | ScanState.InQuotes => false

/-- `JsonScan::handle_state` (assets.rs, lines 333-347): a quote toggles the
state unless the single previously seen byte was a backslash; on a toggle the
counter of the side being left behind is reset. -/
def handle_state (st : JsonScanState) : JsonScanState :=
  match st.prev with
  | some 92 => st
  | _ =>
    match st.state with
    | ScanState.InQuotes =>
      { st with offsets := (st.offsets.1, 0), state := ScanState.OutQuotes }
    | ScanState.OutQuotes =>
      { st with offsets := (0, st.offsets.2), state := ScanState.InQuotes }

/-- `JsonScan::increment_offset` (assets.rs, lines 349-354). -/
def increment_offset (st : JsonScanState) : JsonScanState :=
  match st.state with
  | ScanState.InQuotes => { st with offsets := (st.offsets.1 + 1, st.offsets.2) }
  | ScanState.OutQuotes => { st with offsets := (st.offsets.1, st.offsets.2 + 1) }

/-- One step of the `Iterator` for `JsonScan` (assets.rs, lines 357-384):
`some b` is an `Ok` byte from the underlying reader, `none` is an `Err` item
(which still advances the counter and clears `prev`). -/
def scanStep (st : JsonScanState) : Option Nat → JsonScanState
  | some 34 => { handle_state st with prev := some 34 }
  | some b => { increment_offset st with prev := some b }
  | none => { increment_offset st with prev := none }

/-- The scanner state after consuming a whole item stream. -/
def scanRun (items : List (Option Nat)) : JsonScanState :=
  items.foldl scanStep initScan

/-- Non-dependent restatement of one `parse_next` call inside the iterator
drain, used to evaluate `parseNextIter` on concrete states. -/
theorem parseNextIter_unfold (ident : Nat) (st : List (Json × String) × List Rec) :
    parseNextIter ident st =
      match parse_next ident st with
      | (none, _) => []
      | (some r, st2) => r :: parseNextIter ident st2 := by
  rw [parseNextIter.eq_def]
  split
  · rename_i snd h
    rw [h]
  · rename_i r st2 h
    rw [h]

/-- `write` never extends the sink, whatever the options, entry and value:
the output block of models.rs lines 190-219 is commented out. -/
theorem writeEffect_id (options : Options) (entry : String) (val : Option Json)
    (output : List String) : writeEffect options entry val output = output := rfl

/-- Printing a whole packet leaves the sink unchanged. -/
theorem printSink_id (options : Options) (d : Json) (output : List String) :
    printSink options d output = output := by
  unfold printSink
  generalize parse_json d = l
  induction l generalizing output with
  | nil => rfl
  | cons e l ih => exact ih _

/-- The `Options` produced by the structopt defaults of models.rs (lines
30-88): type shown, separator a comma and space, match-all regex, single
document mode. -/
def defaultOptions : Options :=
  { hide_type := false, separator := ", ", regex := ".*", multi_documents := none }

/-- `BlockKind` (assets.rs, lines 67-74). -/
inductive BlockKind where
  | ident (i : Nat) : BlockKind
  | delimiter (d : Char) : BlockKind
  | type (t : JType) : BlockKind
  | pointer (p : String) : BlockKind
  | value (v : Option String) : BlockKind

/-- `impl Display for BlockKind` (assets.rs, lines 76-86): an absent value
block displays as the default (empty) string. -/
def blockDisplay : BlockKind → String
  | BlockKind.ident i => natToString i
  | BlockKind.delimiter d => String.mk [d]
  | BlockKind.type t => jtypeName t
  | BlockKind.pointer p => p
  | BlockKind.value v => v.getD ""

theorem natToString_zero : natToString 0 = "0" := by
  rw [natToString, natDigits]
  decide

theorem natToString_one : natToString 1 = "1" := by
  rw [natToString, natDigits]
  decide

theorem intToString_one : intToString 1 = "1" := by
  rw [intToString]
  simp [natToString_one]

/-- C1: the design requires `write` to emit exactly one formatted line per
record (or none when the regex filter suppresses it), but in models.rs the
whole filtering-and-writing block (lines 190-219) is commented out, so the
sink receives nothing for any record. Evaluated at the failing input: the
one-leaf document mapping key a to 1 produces the pointer entry `/a`, yet
printing the packet leaves the sink empty. -/
theorem claim_C1_write_discards_record :
    parse_json (Json.obj [("a", Json.num 1)]) = ["/a"]
      ∧ printSink defaultOptions (Json.obj [("a", Json.num 1)]) [] = []
      ∧ writeEffect defaultOptions "/a" (some (Json.num 1)) [] = [] :=
  ⟨by simp [parse_json, parseJsonAux, isObjB, isArrB], printSink_id _ _ _, rfl⟩

set_option maxRecDepth 4000 in
/-- C2: the claim says a container record carries the type of the child
container itself (Array for an array child). Evaluating `parse_next` on the
document mapping key a to the one-element array of 1 shows the container
record for `/a` is tagged `Object` — the type of the popped parent value —
not `Array`: assets.rs lines 427 and 436 convert `value.as_ref().unwrap().0`,
the parent, where the leaf branches convert the popped value itself. -/
theorem claim_C2_container_type_is_parent :
    parseNextAll 0 "" (Json.obj [("a", Json.arr [Json.num 1])])
      = [Rec.mk 0 "/a/0" (some "1") JType.Number, Rec.mk 0 "/a" none JType.Object] := by
  have h1 : parse_next 0 ([(Json.obj [("a", Json.arr [Json.num 1])], "")], [])
      = (some (Rec.mk 0 "/a/0" (some "1") JType.Number),
         ([], [Rec.mk 0 "/a" none JType.Object])) := by
    simp [parse_next, runLoop, jtypeOf, isObjB, isArrB, natToString_zero, intToString_one]
  have h2 : parse_next 0 (([], [Rec.mk 0 "/a" none JType.Object]) :
      List (Json × String) × List Rec)
      = (some (Rec.mk 0 "/a" none JType.Object), ([], [])) := by
    simp [parse_next, runLoop]
  have h3 : parse_next 0 (([], []) : List (Json × String) × List Rec) = (none, ([], [])) := by
    simp [parse_next, runLoop]
  rw [parseNextAll, parseNextIter_unfold]
  simp only [h1]
  rw [parseNextIter_unfold]
  simp only [h2]
  rw [parseNextIter_unfold]
  simp only [h3]

set_option maxRecDepth 4000 in
/-- C3: for the document mapping a to the object mapping b to 1, the live
flattener (`parse_json` feeding `print` in plist order) emits the container
record for `/a` first and the leaf record for `/a/b` second, as the claim
states. -/
theorem claim_C3_container_before_leaf :
    printCalls (Json.obj [("a", Json.obj [("b", Json.num 1)])])
      = [("/a", some (Json.obj [("b", Json.num 1)])), ("/a/b", some (Json.num 1))] := by
  simp [printCalls, parse_json, parseJsonAux, isObjB, isArrB, resolve, splitSlash,
    replaceTilde0, replaceTilde1, resolveGo, objGet]

/-- C6: the design requires line mode to tag each line with a strictly
increasing identifier; the code (to_csv, models.rs lines 127-139) does skip
the malformed second line, but threads no identifier at all — the value of
`multi_documents` is only tested for presence — and, with `write` gutted,
the sink stays empty. Evaluated at the failing input of three lines whose
second is malformed: documents one and three are the ones processed, and no
output line (hence no identifier column) is produced. -/
theorem claim_C6_skip_without_identifier :
    ([some (Json.obj [("a", Json.num 1)]), none, some (Json.num 2)].filterMap id)
      = [Json.obj [("a", Json.num 1)], Json.num 2]
    ∧ toCsvStdinMulti defaultOptions
        [some (Json.obj [("a", Json.num 1)]), none, some (Json.num 2)] [] = [] := by
  constructor
  · simp
  · simp [toCsvStdinMulti, printSink_id]

/-- C7: selecting the type column for the regex while the type flag disables
type output makes `main` abort (main.rs lines 73-77) before the writer is
built or any stdin line is consumed: the result is the panic outcome, for
every possible input stream. -/
theorem claim_C7_eager_config_rejection (m : CliMatches) (lines : List (Option Json))
    (h1 : m.typePresent = true) (h2 : m.regexColumn = some "type") :
    mainRun m lines = none := by
  simp [mainRun, h1, h2]

/-- Witness for C7 at a concrete configuration and input stream. -/
theorem claim_C7_eager_config_rejection_witness :
    (CliMatches.mk true (some "type") ",").typePresent = true
    ∧ mainRun (CliMatches.mk true (some "type") ",") [some Json.null] = none :=
  ⟨rfl, claim_C7_eager_config_rejection _ _ rfl rfl⟩

/-- The opposite quote state; spec-side shorthand for stating how a toggle
behaves. -/
def toggleState : ScanState → ScanState
  | ScanState.InQuotes => ScanState.OutQuotes
  | ScanState.OutQuotes => ScanState.InQuotes

/-- A quote byte seen right after a backslash byte leaves the quote state
unchanged (assets.rs, line 335). -/
theorem scan_quote_escaped (st : JsonScanState) (h : st.prev = some 92) :
    (scanStep st (some 34)).state = st.state := by
  obtain ⟨prev, state, offsets⟩ := st
  simp only at h
  subst h
  cases state <;> rfl

/-- A quote byte seen after anything that is not a backslash byte toggles the
quote state (assets.rs, lines 336-345) — including after a backslash that was
itself preceded by a backslash, since only the single previous byte is kept. -/
theorem scan_quote_toggles (st : JsonScanState) (h : st.prev ≠ some 92) :
    (scanStep st (some 34)).state = toggleState st.state := by
  obtain ⟨prev, state, offsets⟩ := st
  simp only at h
  cases prev with
  | none => cases state <;> rfl
  | some b =>
    have hb : b ≠ 92 := fun hh => h (by rw [hh])
    simp only [scanStep, handle_state]
    rcases state with _ | _
    all_goals rfl

/-- C5 counterexample: the claim says a backslash that is itself preceded by a
backslash does not suppress the following quote toggle. On the byte stream of
the five-byte document consisting of quote, the letter a, backslash,
backslash, quote (a JSON string holding one literal backslash), the scanner
ends still in-quotes: the second backslash did suppress the closing quote
toggle, because `handle_state` looks back exactly one byte. The claim, as
stated, predicts the scanner ends outside quotes. -/
theorem claim_C5_counterexample :
    outside_quotes (scanRun [some 34, some 97, some 92, some 92, some 34]) = false := by
  decide

/-- C5 amended: the scanner toggles on a quote byte exactly when the single
immediately preceding byte is not a backslash byte — an escape therefore
suppresses exactly one toggle (the escaped-quote document quote, a,
backslash, quote, b, quote ends outside quotes), but a backslash preceded by
a backslash still suppresses a following quote toggle (the document quote, a,
backslash, backslash, quote ends inside quotes). -/
theorem claim_C5_amended :
    (∀ st : JsonScanState, st.prev = some 92 → (scanStep st (some 34)).state = st.state)
    ∧ (∀ st : JsonScanState, st.prev ≠ some 92 →
        (scanStep st (some 34)).state = toggleState st.state)
    ∧ outside_quotes (scanRun [some 34, some 97, some 92, some 34, some 98, some 34]) = true
    ∧ outside_quotes (scanRun [some 34, some 97, some 92, some 92, some 34]) = false :=
  ⟨scan_quote_escaped, scan_quote_toggles, by decide, by decide⟩

/-- Witness for C5 at concrete scanner states: a quote after a backslash
keeps the in-quotes state; a quote after the letter a toggles out-to-in. -/
theorem claim_C5_amended_witness :
    (scanStep (JsonScanState.mk (some 92) ScanState.InQuotes (0, 0)) (some 34)).state
      = ScanState.InQuotes
    ∧ (scanStep (JsonScanState.mk (some 97) ScanState.OutQuotes (0, 0)) (some 34)).state
      = toggleState ScanState.OutQuotes :=
  ⟨claim_C5_amended.1 _ rfl, claim_C5_amended.2.1 _ (by decide)⟩

set_option maxRecDepth 4000 in
/-- C9 counterexample: pointer uniqueness fails because object keys go into
the pointer verbatim. The document with the two members a (an object mapping
b to 1) and the single key a-slash-b (mapping to 2) yields the pointer list
slash-a, slash-a-slash-b, slash-a-slash-b: the last two entries collide, so
the list is not duplicate-free as the claim states. -/
theorem claim_C9_counterexample :
    ¬ (parse_json (Json.obj [("a", Json.obj [("b", Json.num 1)]),
        ("a/b", Json.num 2)])).Nodup := by
  have he : parse_json (Json.obj [("a", Json.obj [("b", Json.num 1)]), ("a/b", Json.num 2)])
      = ["/a", "/a/b", "/a/b"] := by
    simp [parse_json, parseJsonAux, isObjB, isArrB]
  rw [he]
  decide

/-- C4 counterexample: the flattener produces a leaf record with pointer
slash-a-slash-b for the one-member document whose key is the three-character
string a-slash-b, but resolving that pointer against the document finds
nothing (the lookup splits on the slash and searches for a member named a),
so no value exists whose rendering could match the record. -/
theorem claim_C4_counterexample :
    parseNextAll 0 "" (Json.obj [("a/b", Json.num 1)])
      = [Rec.mk 0 "/a/b" (some "1") JType.Number]
      ∧ resolve (Json.obj [("a/b", Json.num 1)]) "/a/b" = none := by
  constructor
  · have h1 : parse_next 0 ([(Json.obj [("a/b", Json.num 1)], "")], [])
        = (some (Rec.mk 0 "/a/b" (some "1") JType.Number), ([], [])) := by
      simp [parse_next, runLoop, jtypeOf, isObjB, isArrB, intToString_one]
    have h3 : parse_next 0 (([], []) : List (Json × String) × List Rec) = (none, ([], [])) := by
      simp [parse_next, runLoop]
    rw [parseNextAll, parseNextIter_unfold]
    simp only [h1]
    rw [parseNextIter_unfold]
    simp only [h3]
  · set_option maxRecDepth 4000 in
    simp [resolve, splitSlash, replaceTilde0, replaceTilde1, resolveGo, objGet]

/-- C8 counterexample: in the live pipeline the value column rendered for a
container record is the empty string, not a documented placeholder: the
pointer lookup for the container pointer returns the container itself and
`write` maps object and array values to the empty string (models.rs lines
159-160), which coincides with the rendering of an empty string leaf; the
`BlockKind` renderer likewise displays an absent value as the empty string
(assets.rs line 83). The `NO_VALUE` placeholder only ever appears for a
failed lookup. -/
theorem claim_C8_counterexample :
    renderValue (resolve (Json.obj [("a", Json.arr [])]) "/a") = ""
    ∧ blockDisplay (BlockKind.value none) = ""
    ∧ renderValue (some (Json.str "")) = "" := by
  refine ⟨?_, rfl, rfl⟩
  have hr : resolve (Json.obj [("a", Json.arr [])]) "/a" = some (Json.arr []) := by
    simp [resolve, splitSlash, replaceTilde0, replaceTilde1, resolveGo, objGet]
  rw [hr]
  rfl

/-- What one pop of the traversal appends to the pointer list. -/
def stepEmit : Json × String → List String
  | (Json.obj map, s) => (map.map (fun kv =>
      (if isObjB kv.2 then [s ++ "/" ++ kv.1] else [])
        ++ (if isArrB kv.2 then [s ++ "/" ++ kv.1] else []))).flatten
  | (Json.arr _, _) => []
  | (_, s) => [s]

/-- What one pop of the traversal pushes onto the queue. -/
def stepChildren : Json × String → List (Json × String)
  | (Json.obj map, s) => map.map (fun kv => (kv.2, s ++ "/" ++ kv.1))
  | (Json.arr a, s) => a.enum.map (fun iv => (iv.2, s ++ "/" ++ natToString iv.1))
  | _ => []

theorem parseJsonAux_step (e : Json × String) (q : List (Json × String)) :
    parseJsonAux (e :: q) = stepEmit e ++ parseJsonAux (q ++ stepChildren e) := by
  obtain ⟨v, s⟩ := e
  cases v <;> simp [parseJsonAux, stepEmit, stepChildren]

theorem jsizeL_mem (xs : List Json) (x : Json) (h : x ∈ xs) : jsize x ≤ jsizeL xs := by
  induction xs with
  | nil => cases h
  | cons y ys ih =>
    rcases List.mem_cons.mp h with rfl | h2
    · simp [jsizeL]
    · have := ih h2
      simp [jsizeL]
      omega

theorem jsizeM_mem (kvs : List (String × Json)) (kv : String × Json) (h : kv ∈ kvs) :
    jsize kv.2 ≤ jsizeM kvs := by
  induction kvs with
  | nil => cases h
  | cons y ys ih =>
    rcases List.mem_cons.mp h with rfl | h2
    · simp [jsizeM]
    · have := ih h2
      simp [jsizeM]
      omega

theorem stepChildren_size (v : Json) (s : String) (c : Json × String)
    (h : c ∈ stepChildren (v, s)) : jsize c.1 < jsize v := by
  cases v with
  | obj map =>
    simp only [stepChildren, List.mem_map] at h
    obtain ⟨kv, hkv, rfl⟩ := h
    have := jsizeM_mem map kv hkv
    simp [jsize]
    omega
  | arr a =>
    simp only [stepChildren, List.mem_map] at h
    obtain ⟨iv, hiv, rfl⟩ := h
    have hmem : iv.2 ∈ a := by
      have := List.mem_map_of_mem Prod.snd hiv
      rwa [List.enum_map_snd] at this
    have := jsizeL_mem a iv.2 hmem
    simp [jsize]
    omega
  | null => simp [stepChildren] at h
  | bool b => simp [stepChildren] at h
  | num n => simp [stepChildren] at h
  | str t => simp [stepChildren] at h

/-- The per-subtree pointer collection: what the traversal will, across all
later pops, emit on behalf of the subtree rooted at a queue entry. -/
def recsPaths (v : Json) (s : String) : List String :=
  stepEmit (v, s) ++ ((stepChildren (v, s)).attach.map
    (fun c => recsPaths c.1.1 c.1.2)).flatten
termination_by jsize v
decreasing_by
  exact stepChildren_size v s c.1 c.2

theorem recsPaths_eq (v : Json) (s : String) :
    recsPaths v s = stepEmit (v, s)
      ++ ((stepChildren (v, s)).map (fun c => recsPaths c.1 c.2)).flatten := by
  rw [recsPaths]
  congr 1
  congr 1
  exact List.attach_map_val (stepChildren (v, s)) (fun c => recsPaths c.1 c.2)

theorem stepChildren_queueSize (e : Json × String) :
    jsize e.1 = 1 + queueSize (stepChildren e) := by
  obtain ⟨v, s⟩ := e
  cases v with
  | obj map => simp [stepChildren, queueSize_obj_children, jsize]
  | arr a => simp [stepChildren, queueSize_arr_children, jsize]
  | null => simp [stepChildren, queueSize, jsize]
  | bool b => simp [stepChildren, queueSize, jsize]
  | num n => simp [stepChildren, queueSize, jsize]
  | str t => simp [stepChildren, queueSize, jsize]

/-- The FIFO interleaving of the traversal is, as a multiset, the
concatenation of the per-subtree collections of the queue entries. -/
theorem parseJsonAux_perm_aux (n : Nat) :
    ∀ q : List (Json × String), queueSize q ≤ n →
      (parseJsonAux q).Perm ((q.map (fun e => recsPaths e.1 e.2)).flatten) := by
  induction n with
  | zero =>
    intro q hq
    cases q with
    | nil => simp [parseJsonAux]
    | cons e q =>
      exfalso
      have h1 := jsize_pos e.1
      rw [queueSize_cons] at hq
      omega
  | succ n ih =>
    intro q hq
    cases q with
    | nil => simp [parseJsonAux]
    | cons e q =>
      rw [parseJsonAux_step]
      have hsz := stepChildren_queueSize e
      rw [queueSize_cons] at hq
      have h1 : queueSize (q ++ stepChildren e) ≤ n := by
        rw [queueSize_append]
        omega
      have h2 := ih _ h1
      have step1 : (stepEmit e ++ parseJsonAux (q ++ stepChildren e)).Perm
          (stepEmit e ++ ((q ++ stepChildren e).map (fun c => recsPaths c.1 c.2)).flatten) :=
        h2.append_left _
      refine step1.trans ?_
      rw [List.map_append, List.flatten_append]
      have step2 : (stepEmit e ++ ((q.map (fun c => recsPaths c.1 c.2)).flatten
          ++ ((stepChildren e).map (fun c => recsPaths c.1 c.2)).flatten)).Perm
          (stepEmit e ++ (((stepChildren e).map (fun c => recsPaths c.1 c.2)).flatten
          ++ (q.map (fun c => recsPaths c.1 c.2)).flatten)) :=
        (List.perm_append_comm).append_left _
      refine step2.trans ?_
      rw [← List.append_assoc]
      have step3 : stepEmit e ++ ((stepChildren e).map (fun c => recsPaths c.1 c.2)).flatten
          = recsPaths e.1 e.2 := by
        obtain ⟨v, s⟩ := e
        rw [recsPaths_eq]
      rw [step3]
      simp

/-- The pointer list of a packet is a permutation of the structural
collection of the whole document. -/
theorem parse_json_perm (d : Json) :
    (parse_json d).Perm (recsPaths d "") := by
  have := parseJsonAux_perm_aux (queueSize [(d, "")]) [(d, "")] (le_refl _)
  rw [parse_json]
  refine this.trans ?_
  simp

/-- A path strictly below the base path: the base's characters, a slash, and
something more. -/
def pathExt (s p : String) : Prop := ∃ r, p.data = s.data ++ '/' :: r

theorem pathExt_append (s : String) (k : String) : pathExt s (s ++ "/" ++ k) := by
  refine ⟨k.data, ?_⟩
  rw [String.data_append, String.data_append]
  have hd : "/".data = ['/'] := by decide
  rw [hd]
  simp

theorem pathExt_trans_base (s seg p : String)
    (h : pathExt (s ++ "/" ++ seg) p) : pathExt s p := by
  obtain ⟨r, hr⟩ := h
  refine ⟨seg.data ++ '/' :: r, ?_⟩
  rw [hr, String.data_append, String.data_append]
  simp

theorem pathExt_ne (s p : String) (h : pathExt s p) : p ≠ s := by
  obtain ⟨r, hr⟩ := h
  intro he
  subst he
  have := congrArg List.length hr
  simp at this

/-- Every pointer collected under a base path is the base itself (for a leaf)
or strictly below it; for a container, always strictly below. -/
theorem recsPaths_shape (n : Nat) : ∀ v s, jsize v ≤ n → ∀ p ∈ recsPaths v s,
    (p = s ∧ isContainerB v = false) ∨ pathExt s p := by
  induction n with
  | zero =>
    intro v s hv
    exact absurd (lt_of_lt_of_le (jsize_pos v) hv) (by omega)
  | succ n ih =>
    intro v s hv p hp
    rw [recsPaths_eq] at hp
    rcases List.mem_append.mp hp with hemit | hrest
    · cases v with
      | obj map =>
        right
        simp only [stepEmit, List.mem_flatten, List.mem_map] at hemit
        obtain ⟨l, ⟨kv, hkv, rfl⟩, hpl⟩ := hemit
        rcases List.mem_append.mp hpl with h1 | h1
        · split at h1
          · rw [List.mem_singleton.mp h1]
            exact pathExt_append s kv.1
          · cases h1
        · split at h1
          · rw [List.mem_singleton.mp h1]
            exact pathExt_append s kv.1
          · cases h1
      | arr a => simp [stepEmit] at hemit
      | null =>
        left
        simp only [stepEmit, List.mem_singleton] at hemit
        exact ⟨hemit, rfl⟩
      | bool b =>
        left
        simp only [stepEmit, List.mem_singleton] at hemit
        exact ⟨hemit, rfl⟩
      | num m =>
        left
        simp only [stepEmit, List.mem_singleton] at hemit
        exact ⟨hemit, rfl⟩
      | str t =>
        left
        simp only [stepEmit, List.mem_singleton] at hemit
        exact ⟨hemit, rfl⟩
    · right
      simp only [List.mem_flatten, List.mem_map] at hrest
      obtain ⟨l, ⟨c, hc, rfl⟩, hpl⟩ := hrest
      have hsize := stepChildren_size v s c hc
      have hshape := ih c.1 c.2 (by omega) p hpl
      have hbase : ∃ seg : String, c.2 = s ++ "/" ++ seg := by
        cases v with
        | obj map =>
          simp only [stepChildren, List.mem_map] at hc
          obtain ⟨kv, hkv, rfl⟩ := hc
          exact ⟨kv.1, rfl⟩
        | arr a =>
          simp only [stepChildren, List.mem_map] at hc
          obtain ⟨iv, hiv, rfl⟩ := hc
          exact ⟨natToString iv.1, rfl⟩
        | null => simp [stepChildren] at hc
        | bool b => simp [stepChildren] at hc
        | num m => simp [stepChildren] at hc
        | str t => simp [stepChildren] at hc
      obtain ⟨seg, hseg⟩ := hbase
      rcases hshape with ⟨rfl, _⟩ | hext
      · rw [hseg]
        exact pathExt_append s seg
      · rw [hseg] at hext
        exact pathExt_trans_base s seg p hext

theorem digitChar_isDigit (m : Nat) (h : m < 10) : (Nat.digitChar m).isDigit = true := by
  interval_cases m <;> decide

theorem natDigits_all_digits (n : Nat) : ∀ c ∈ natDigits n, c.isDigit = true := by
  induction n using Nat.strong_induction_on with
  | _ n ih =>
    intro c hc
    rw [natDigits] at hc
    split at hc
    · rename_i h10
      rw [List.mem_singleton.mp hc]
      exact digitChar_isDigit n h10
    · rename_i h10
      rcases List.mem_append.mp hc with h1 | h1
      · exact ih (n / 10) (Nat.div_lt_self (by omega) (by omega)) c h1
      · rw [List.mem_singleton.mp h1]
        exact digitChar_isDigit (n % 10) (Nat.mod_lt n (by omega))

theorem natDigits_ne_nil (n : Nat) : natDigits n ≠ [] := by
  rw [natDigits]
  split
  · simp
  · simp

/-- The numeric value of a digit list, as the fold used by `parseNatChars`. -/
def digitsVal (cs : List Char) : Nat :=
  cs.foldl (fun a c => 10 * a + (c.toNat - '0'.toNat)) 0

theorem digitsVal_append_one (xs : List Char) (c : Char) :
    digitsVal (xs ++ [c]) = 10 * digitsVal xs + (c.toNat - '0'.toNat) := by
  rw [digitsVal, List.foldl_append]
  rfl

theorem digitChar_val (m : Nat) (h : m < 10) :
    (Nat.digitChar m).toNat - '0'.toNat = m := by
  interval_cases m <;> decide

theorem digitsVal_natDigits (n : Nat) : digitsVal (natDigits n) = n := by
  induction n using Nat.strong_induction_on with
  | _ n ih =>
    rw [natDigits]
    split
    · rename_i h10
      rw [digitsVal]
      simp only [List.foldl_cons, List.foldl_nil]
      rw [digitChar_val n h10]
      omega
    · rename_i h10
      rw [digitsVal_append_one,
        ih (n / 10) (Nat.div_lt_self (by omega) (by omega)),
        digitChar_val (n % 10) (Nat.mod_lt n (by omega))]
      omega

theorem natDigits_injective (m n : Nat) (h : natDigits m = natDigits n) : m = n := by
  have := digitsVal_natDigits m
  rw [h, digitsVal_natDigits] at this
  omega

theorem natToString_injective (m n : Nat) (h : natToString m = natToString n) : m = n := by
  rw [natToString, natToString] at h
  exact natDigits_injective m n (congrArg String.data h)

theorem natToString_data (n : Nat) : (natToString n).data = natDigits n := rfl

theorem natDigits_head_zero (n : Nat) :
    (natDigits n).head? = some '0' → n = 0 := by
  induction n using Nat.strong_induction_on with
  | _ n ih =>
    intro h
    rw [natDigits] at h
    split at h
    · rename_i h10
      simp only [List.head?_cons, Option.some.injEq] at h
      interval_cases n <;> first | rfl | (exact absurd h (by decide))
    · rename_i h10
      exfalso
      obtain ⟨c2, cs2, hne⟩ := List.exists_cons_of_ne_nil (natDigits_ne_nil (n / 10))
      rw [hne] at h
      simp only [List.cons_append, List.head?_cons, Option.some.injEq] at h
      have hz : n / 10 = 0 := by
        refine ih (n / 10) (Nat.div_lt_self (by omega) (by omega)) ?_
        rw [hne]
        simp [List.head?_cons, h]
      have hpos : 0 < n / 10 := Nat.div_pos (by omega) (by omega)
      omega

/-- No key of the list repeats (Boolean check; `serde_json::Map` guarantees
this for parsed documents). -/
def distinctKeysB : List String → Bool
  | [] => true
  | k :: ks => !(ks.contains k) && distinctKeysB ks

mutual
/-- Every object of the document has pairwise distinct keys, none containing
any of the given forbidden characters. -/
def keysCleanB (bad : List Char) : Json → Bool
  | Json.obj kvs =>
      distinctKeysB (kvs.map Prod.fst)
        && (kvs.map Prod.fst).all (fun k => k.data.all (fun c => !(bad.contains c)))
        && keysCleanM bad kvs
  | Json.arr xs => keysCleanL bad xs
  | _ => true
def keysCleanL (bad : List Char) : List Json → Bool
  | [] => true
  | x :: xs => keysCleanB bad x && keysCleanL bad xs
def keysCleanM (bad : List Char) : List (String × Json) → Bool
  | [] => true
  | kv :: kvs => keysCleanB bad kv.2 && keysCleanM bad kvs
end

theorem distinctKeysB_nodup (ks : List String) (h : distinctKeysB ks = true) : ks.Nodup := by
  induction ks with
  | nil => exact List.nodup_nil
  | cons k ks ih =>
    rw [distinctKeysB, Bool.and_eq_true] at h
    refine List.nodup_cons.mpr ⟨?_, ih h.2⟩
    intro hmem
    have hc : ks.contains k = true := List.elem_eq_true_of_mem hmem
    rw [hc] at h
    simp at h

theorem keysCleanL_mem (bad : List Char) (xs : List Json) (x : Json)
    (hx : x ∈ xs) (h : keysCleanL bad xs = true) : keysCleanB bad x = true := by
  induction xs with
  | nil => cases hx
  | cons y ys ih =>
    rw [keysCleanL, Bool.and_eq_true] at h
    rcases List.mem_cons.mp hx with rfl | h2
    · exact h.1
    · exact ih h2 h.2

theorem keysCleanM_mem (bad : List Char) (kvs : List (String × Json)) (kv : String × Json)
    (hx : kv ∈ kvs) (h : keysCleanM bad kvs = true) : keysCleanB bad kv.2 = true := by
  induction kvs with
  | nil => cases hx
  | cons y ys ih =>
    rw [keysCleanM, Bool.and_eq_true] at h
    rcases List.mem_cons.mp hx with rfl | h2
    · exact h.1
    · exact ih h2 h.2

/-- Membership in the pointer zone of the child named by segment `k` under
base `s`: the child pointer itself, or anything strictly below it. -/
def inZone (s k p : String) : Prop :=
  ∃ r, p.data = s.data ++ '/' :: (k.data ++ r) ∧ (r = [] ∨ ∃ t, r = '/' :: t)

theorem inZone_self (s k : String) : inZone s k (s ++ "/" ++ k) := by
  refine ⟨[], ?_, Or.inl rfl⟩
  rw [String.data_append, String.data_append]
  have hd : "/".data = ['/'] := by decide
  rw [hd]
  simp

theorem inZone_ext (s k p : String) (h : pathExt (s ++ "/" ++ k) p) : inZone s k p := by
  obtain ⟨r, hr⟩ := h
  refine ⟨'/' :: r, ?_, Or.inr ⟨r, rfl⟩⟩
  rw [hr, String.data_append, String.data_append]
  have hd : "/".data = ['/'] := by decide
  rw [hd]
  simp

theorem inZone_of_recsPaths (m : Nat) (v : Json) (s k p : String)
    (hm : jsize v ≤ m) (hp : p ∈ recsPaths v (s ++ "/" ++ k)) : inZone s k p := by
  rcases recsPaths_shape m v (s ++ "/" ++ k) hm p hp with ⟨rfl, _⟩ | hext
  · exact inZone_self s k
  · exact inZone_ext s k p hext

theorem seg_clash (k1 k2 r1 r2 : List Char)
    (hs1 : ∀ c ∈ k1, c ≠ '/') (hs2 : ∀ c ∈ k2, c ≠ '/')
    (hr1 : r1 = [] ∨ ∃ t, r1 = '/' :: t) (hr2 : r2 = [] ∨ ∃ t, r2 = '/' :: t)
    (heq : k1 ++ r1 = k2 ++ r2) : k1 = k2 := by
  rcases List.append_eq_append_iff.mp heq with ⟨a, ha1, ha2⟩ | ⟨a, ha1, ha2⟩
  · cases a with
    | nil => rw [ha1]; simp
    | cons c a2 =>
      exfalso
      have hc : c ∈ k2 := by
        rw [ha1]
        exact List.mem_append.mpr (Or.inr (List.mem_cons_self c a2))
      rcases hr1 with rfl | ⟨t, rfl⟩
      · exact List.cons_ne_nil c (a2 ++ r2) ha2.symm
      · have : c = '/' := by
          have := ha2
          simp only [List.cons_append, List.cons.injEq] at this
          exact this.1.symm
        exact hs2 c hc this
  · cases a with
    | nil => rw [ha1]; simp
    | cons c a2 =>
      exfalso
      have hc : c ∈ k1 := by
        rw [ha1]
        exact List.mem_append.mpr (Or.inr (List.mem_cons_self c a2))
      rcases hr2 with rfl | ⟨t, rfl⟩
      · exact List.cons_ne_nil c (a2 ++ r1) ha2.symm
      · have : c = '/' := by
          have := ha2
          simp only [List.cons_append, List.cons.injEq] at this
          exact this.1.symm
        exact hs1 c hc this

theorem zones_disjoint (s k1 k2 p : String)
    (hs1 : ∀ c ∈ k1.data, c ≠ '/') (hs2 : ∀ c ∈ k2.data, c ≠ '/')
    (hne : k1 ≠ k2) (h1 : inZone s k1 p) (h2 : inZone s k2 p) : False := by
  obtain ⟨r1, hd1, hr1⟩ := h1
  obtain ⟨r2, hd2, hr2⟩ := h2
  rw [hd1] at hd2
  have hcancel : '/' :: (k1.data ++ r1) = '/' :: (k2.data ++ r2) :=
    List.append_cancel_left hd2
  have heq : k1.data ++ r1 = k2.data ++ r2 := by injection hcancel
  exact hne (String.ext (seg_clash k1.data k2.data r1 r2 hs1 hs2 hr1 hr2 heq))

theorem digit_ne_slash (c : Char) (h : c.isDigit = true) : c ≠ '/' := by
  intro hc
  subst hc
  exact absurd h (by decide)

theorem natToString_slashFree (n : Nat) : ∀ c ∈ (natToString n).data, c ≠ '/' := by
  intro c hc
  exact digit_ne_slash c (natDigits_all_digits n c hc)

theorem keysClean_obj_parts (bad : List Char) (kvs : List (String × Json))
    (h : keysCleanB bad (Json.obj kvs) = true) :
    distinctKeysB (kvs.map Prod.fst) = true
    ∧ (∀ kv ∈ kvs, ∀ c ∈ (kv : String × Json).1.data, c ∉ bad)
    ∧ keysCleanM bad kvs = true := by
  rw [keysCleanB, Bool.and_eq_true, Bool.and_eq_true] at h
  refine ⟨h.1.1, ?_, h.2⟩
  intro kv hkv c hc hbad
  have h2 := h.1.2
  rw [List.all_eq_true] at h2
  have h3 := h2 kv.1 (List.mem_map_of_mem Prod.fst hkv)
  rw [List.all_eq_true] at h3
  have h4 := h3 c hc
  rw [Bool.not_eq_true'] at h4
  have h5 : bad.contains c = true := List.elem_eq_true_of_mem hbad
  rw [h5] at h4
  exact absurd h4 (by decide)

theorem flatten_map_append_perm {α β : Type} (l : List α) (f g : α → List β) :
    (((l.map f).flatten ++ (l.map g).flatten)).Perm ((l.map (fun x => f x ++ g x)).flatten) := by
  induction l with
  | nil => simp
  | cons x xs ih =>
    simp only [List.map_cons, List.flatten_cons]
    rw [List.append_assoc]
    refine List.Perm.trans (List.Perm.append_left (f x)
      (List.perm_append_comm_assoc (xs.map f).flatten (g x) (xs.map g).flatten)) ?_
    rw [List.append_assoc]
    exact List.Perm.append_left _ (List.Perm.append_left _ ih)

theorem isObjB_not_isArrB (v : Json) (h : isObjB v = true) : isArrB v = false := by
  cases v <;> simp_all [isObjB, isArrB]

theorem markList_eq (v : Json) (x : String) :
    ((if isObjB v then [x] else []) ++ (if isArrB v then [x] else []))
      = (if isContainerB v then [x] else []) := by
  cases v <;> simp [isObjB, isArrB, isContainerB]

theorem recsPaths_not_base (v : Json) (s : String) (hc : isContainerB v = true) :
    s ∉ recsPaths v s := by
  intro hmem
  rcases recsPaths_shape (jsize v) v s (le_refl _) s hmem with ⟨_, hfalse⟩ | hext
  · rw [hc] at hfalse
    cases hfalse
  · exact pathExt_ne s s hext rfl

/-- With pairwise distinct, slash-free keys everywhere, the structural
pointer collection of any subtree is duplicate-free. -/
theorem recsPaths_nodup (n : Nat) : ∀ v s, jsize v ≤ n → keysCleanB ['/'] v = true →
    (recsPaths v s).Nodup := by
  induction n with
  | zero =>
    intro v s hv
    exact absurd (lt_of_lt_of_le (jsize_pos v) hv) (by omega)
  | succ n ih =>
    intro v s hv hclean
    cases v with
    | null =>
      rw [recsPaths_eq]
      simp [stepEmit, stepChildren]
    | bool b =>
      rw [recsPaths_eq]
      simp [stepEmit, stepChildren]
    | num m =>
      rw [recsPaths_eq]
      simp [stepEmit, stepChildren]
    | str t =>
      rw [recsPaths_eq]
      simp [stepEmit, stepChildren]
    | arr a =>
      rw [recsPaths_eq]
      simp only [stepEmit, stepChildren, List.nil_append, List.map_map]
      rw [List.nodup_flatten]
      constructor
      · intro l hl
        simp only [List.mem_map, Function.comp] at hl
        obtain ⟨iv, hiv, rfl⟩ := hl
        have hmem : iv.2 ∈ a := by
          have := List.mem_map_of_mem Prod.snd hiv
          rwa [List.enum_map_snd] at this
        have hsz : jsize iv.2 ≤ n := by
          have h1 := jsizeL_mem a iv.2 hmem
          have h2 : jsize (Json.arr a) ≤ n + 1 := hv
          rw [jsize] at h2
          omega
        exact ih iv.2 _ hsz (keysCleanL_mem ['/'] a iv.2 hmem hclean)
      · have hnd : (a.enum.map Prod.fst).Nodup := by
          rw [List.enum_map_fst]
          exact List.nodup_range _
        have hpair : a.enum.Pairwise (fun x y => x.1 ≠ y.1) := by
          rw [List.Nodup, List.pairwise_map] at hnd
          exact hnd
        rw [List.pairwise_map]
        refine hpair.imp ?_
        intro x y hxy
        intro p hp1 hp2
        simp only [Function.comp] at hp1 hp2
        have hz1 := inZone_of_recsPaths (jsize x.2) x.2 s (natToString x.1) p (le_refl _) hp1
        have hz2 := inZone_of_recsPaths (jsize y.2) y.2 s (natToString y.1) p (le_refl _) hp2
        exact zones_disjoint s (natToString x.1) (natToString y.1) p
          (natToString_slashFree x.1) (natToString_slashFree y.1)
          (fun he => hxy (natToString_injective x.1 y.1 he)) hz1 hz2
    | obj kvs =>
      obtain ⟨hdk, hsf, hcm⟩ := keysClean_obj_parts ['/'] kvs hclean
      have hkey : ∀ kv ∈ kvs, ∀ c ∈ (kv : String × Json).1.data, c ≠ '/' := by
        intro kv hkv c hc he
        exact hsf kv hkv c hc (he ▸ List.mem_singleton_self '/')
      rw [recsPaths_eq]
      simp only [stepEmit, stepChildren]
      have hmm : List.map (fun c : Json × String => recsPaths c.1 c.2)
          (List.map (fun kv : String × Json => (kv.2, s ++ "/" ++ kv.1)) kvs)
          = List.map (fun kv : String × Json => recsPaths kv.2 (s ++ "/" ++ kv.1)) kvs := by
        rw [List.map_map]
        rfl
      rw [hmm]
      have hperm := flatten_map_append_perm kvs
        (fun kv => (if isObjB kv.2 then [s ++ "/" ++ kv.1] else [])
          ++ (if isArrB kv.2 then [s ++ "/" ++ kv.1] else []))
        (fun kv => recsPaths kv.2 (s ++ "/" ++ kv.1))
      rw [hperm.nodup_iff]
      rw [List.nodup_flatten]
      have hinblock : ∀ kv ∈ kvs, ∀ p,
          p ∈ ((if isObjB (kv : String × Json).2 then [s ++ "/" ++ kv.1] else [])
            ++ (if isArrB kv.2 then [s ++ "/" ++ kv.1] else []))
            ++ recsPaths kv.2 (s ++ "/" ++ kv.1) → inZone s kv.1 p := by
        intro kv hkv p hp
        rw [markList_eq] at hp
        rcases List.mem_append.mp hp with h1 | h1
        · split at h1
          · rw [List.mem_singleton.mp h1]
            exact inZone_self s kv.1
          · cases h1
        · exact inZone_of_recsPaths (jsize kv.2) kv.2 s kv.1 p (le_refl _) h1
      constructor
      · intro l hl
        simp only [List.mem_map] at hl
        obtain ⟨kv, hkv, rfl⟩ := hl
        have hsz : jsize kv.2 ≤ n := by
          have h1 := jsizeM_mem kvs kv hkv
          have h2 : jsize (Json.obj kvs) ≤ n + 1 := hv
          rw [jsize] at h2
          omega
        have hnd2 := ih kv.2 (s ++ "/" ++ kv.1) hsz (keysCleanM_mem ['/'] kvs kv hkv hcm)
        rw [markList_eq]
        split
        · rename_i hcont
          rw [List.singleton_append, List.nodup_cons]
          exact ⟨recsPaths_not_base kv.2 _ hcont, hnd2⟩
        · rw [List.nil_append]
          exact hnd2
      · have hnodup_keys : (kvs.map Prod.fst).Nodup := distinctKeysB_nodup _ hdk
        have hpair : kvs.Pairwise (fun x y => x.1 ≠ y.1) := by
          rw [List.Nodup, List.pairwise_map] at hnodup_keys
          exact hnodup_keys
        rw [List.pairwise_map]
        refine List.Pairwise.imp_of_mem ?_ hpair
        intro x y hx hy hxy
        intro p hp1 hp2
        exact zones_disjoint s x.1 y.1 p (hkey x hx) (hkey y hy) hxy
          (hinblock x hx p hp1) (hinblock y hy p hp2)

/-- C9 amended: for documents whose objects have pairwise distinct keys none
of which contains a slash (keys enter pointers verbatim, unescaped), the
pointer list of the flattener is duplicate-free. -/
theorem claim_C9_amended (d : Json) (h : keysCleanB ['/'] d = true) :
    (parse_json d).Nodup := by
  rw [(parse_json_perm d).nodup_iff]
  exact recsPaths_nodup (jsize d) d "" (le_refl _) h

/-- Witness for C9 at a concrete two-branch document with clean keys. -/
theorem claim_C9_amended_witness :
    keysCleanB ['/'] (Json.obj [("a", Json.obj [("b", Json.num 1)]), ("c", Json.arr [Json.num 2])]) = true
    ∧ (parse_json (Json.obj [("a", Json.obj [("b", Json.num 1)]), ("c", Json.arr [Json.num 2])])).Nodup := by
  have h : keysCleanB ['/'] (Json.obj [("a", Json.obj [("b", Json.num 1)]),
      ("c", Json.arr [Json.num 2])]) = true := by
    simp [keysCleanB, keysCleanM, keysCleanL, distinctKeysB]
  exact ⟨h, claim_C9_amended _ h⟩

/-- C10: container records come only from the object branch: the empty
object and the empty array yield no records; a top-level container never
yields a record for the root pointer; and a container sitting in an array
cell gets no record of its own. -/
theorem claim_C10_object_branch_only :
    (parse_json (Json.obj []) = [] ∧ parse_json (Json.arr []) = [])
    ∧ (∀ d : Json, isContainerB d = true → "" ∉ parse_json d)
    ∧ (∀ (xs : List Json) (i : Nat) (v : Json), xs.get? i = some v →
        isContainerB v = true → ("/" ++ natToString i) ∉ parse_json (Json.arr xs)) := by
  refine ⟨⟨?_, ?_⟩, ?_, ?_⟩
  · simp [parse_json, parseJsonAux]
  · simp [parse_json, parseJsonAux]
  · intro d hd hmem
    exact recsPaths_not_base d "" hd ((parse_json_perm d).mem_iff.mp hmem)
  · intro xs i v hget hv hmem
    have hmem2 : ("/" ++ natToString i) ∈ recsPaths (Json.arr xs) "" :=
      (parse_json_perm _).mem_iff.mp hmem
    rw [recsPaths_eq] at hmem2
    simp only [stepEmit, stepChildren, List.nil_append, List.mem_flatten, List.mem_map] at hmem2
    obtain ⟨l, ⟨c, ⟨iv, hiv, rfl⟩, rfl⟩, hpl⟩ := hmem2
    have hz1 : inZone "" (natToString iv.1) ("/" ++ natToString i) :=
      inZone_of_recsPaths (jsize iv.2) iv.2 "" (natToString iv.1) _ (le_refl _) hpl
    by_cases hij : iv.1 = i
    · have hvv : iv.2 = v := by
        have := List.mem_enum_iff_get?.mp hiv
        rw [hij, hget] at this
        injection this with h2
        exact h2.symm
      have hbase : ("" : String) ++ "/" ++ natToString iv.1 = "/" ++ natToString i := by
        rw [hij]
        rfl
      rw [← hbase] at hpl
      exact recsPaths_not_base iv.2 _ (hvv ▸ hv) hpl
    · have hz2 : inZone "" (natToString i) ("/" ++ natToString i) := by
        have := inZone_self "" (natToString i)
        simpa using this
      exact zones_disjoint "" (natToString iv.1) (natToString i) _
        (natToString_slashFree iv.1) (natToString_slashFree i)
        (fun he => hij (natToString_injective iv.1 i he)) hz1 hz2

/-- Witness for C10: a one-member object never emits the root pointer, and
the array holding one empty array emits nothing for cell zero. -/
theorem claim_C10_object_branch_only_witness :
    (isContainerB (Json.obj [("a", Json.num 1)]) = true
      ∧ "" ∉ parse_json (Json.obj [("a", Json.num 1)]))
    ∧ ([Json.arr []].get? 0 = some (Json.arr [])
      ∧ isContainerB (Json.arr []) = true
      ∧ ("/" ++ natToString 0) ∉ parse_json (Json.arr [Json.arr []])) :=
  ⟨⟨rfl, claim_C10_object_branch_only.2.1 _ rfl⟩, ⟨rfl, rfl, claim_C10_object_branch_only.2.2 _ 0 _ rfl rfl⟩⟩

/-- The value column a leaf contributes in `parse_next` (assets.rs, lines
448-487): strings verbatim, numbers in decimal, booleans as true/false, null
as the literal text null; containers contribute no value. -/
def renderLeaf : Json → Option String
  | Json.str t => some t
  | Json.num m => some (intToString m)
  | Json.bool b => some (if b then "true" else "false")
  | Json.null => some "null"
  | _ => none

theorem splitSlash_ne_nil (cs : List Char) : splitSlash cs ≠ [] := by
  cases cs with
  | nil => simp [splitSlash]
  | cons c rest =>
    rw [splitSlash]
    split
    · simp
    · split
      · simp
      · simp

theorem splitSlash_append (a b : List Char) :
    splitSlash (a ++ '/' :: b) = splitSlash a ++ splitSlash b := by
  induction a with
  | nil =>
    rw [List.nil_append, splitSlash]
    simp [splitSlash]
  | cons c a2 ih =>
    rw [List.cons_append, splitSlash]
    split
    · rename_i hc
      rw [hc, splitSlash]
      simp [ih]
    · rename_i hc
      rw [ih]
      obtain ⟨p, ps, hps⟩ : ∃ p ps, splitSlash a2 = p :: ps :=
        List.exists_cons_of_ne_nil (splitSlash_ne_nil a2)
      rw [hps]
      rw [splitSlash]
      simp only [if_neg hc]
      rw [hps]
      simp

theorem splitSlash_noSlash (cs : List Char) (h : ∀ c ∈ cs, c ≠ '/') :
    splitSlash cs = [cs] := by
  induction cs with
  | nil => rfl
  | cons c rest ih =>
    rw [splitSlash]
    rw [if_neg (h c (List.mem_cons_self c rest))]
    rw [ih (fun x hx => h x (List.mem_cons_of_mem c hx))]

theorem replaceTilde1_cons_ne (c : Char) (rest : List Char) (hc : c ≠ '~') :
    replaceTilde1 (c :: rest) = c :: replaceTilde1 rest := by
  rw [replaceTilde1.eq_def]
  split
  · rename_i rest2 heq
    exfalso
    apply hc
    injection heq with h1 h2
  · rename_i c2 rest2 hno heq
    injection heq with h1 h2
    rw [h1, h2]
  · rename_i heq
    exact absurd heq (List.cons_ne_nil c rest)

theorem replaceTilde1_id (cs : List Char) (h : ∀ c ∈ cs, c ≠ '~') :
    replaceTilde1 cs = cs := by
  induction cs with
  | nil => rfl
  | cons c rest ih =>
    rw [replaceTilde1_cons_ne c rest (h c (List.mem_cons_self c rest))]
    rw [ih (fun x hx => h x (List.mem_cons_of_mem c hx))]

theorem replaceTilde0_cons_ne (c : Char) (rest : List Char) (hc : c ≠ '~') :
    replaceTilde0 (c :: rest) = c :: replaceTilde0 rest := by
  rw [replaceTilde0.eq_def]
  split
  · rename_i rest2 heq
    exfalso
    apply hc
    injection heq with h1 h2
  · rename_i c2 rest2 hno heq
    injection heq with h1 h2
    rw [h1, h2]
  · rename_i heq
    exact absurd heq (List.cons_ne_nil c rest)

theorem replaceTilde0_id (cs : List Char) (h : ∀ c ∈ cs, c ≠ '~') :
    replaceTilde0 cs = cs := by
  induction cs with
  | nil => rfl
  | cons c rest ih =>
    rw [replaceTilde0_cons_ne c rest (h c (List.mem_cons_self c rest))]
    rw [ih (fun x hx => h x (List.mem_cons_of_mem c hx))]

/-- One step of the walk: from a resolved prefix value, through one token. -/
def resolveStep (w : Json) (t : List Char) : Option Json :=
  match w with
  | Json.obj map => objGet map t
  | Json.arr xs => (parse_index t).bind (fun i => xs.get? i)
  | _ => none

theorem resolveGo_cons (j : Json) (t : List Char) (ts : List (List Char)) :
    resolveGo j (t :: ts) = (resolveStep j t).bind (fun v => resolveGo v ts) := by
  cases j with
  | obj map => rfl
  | arr xs => rfl
  | null => rfl
  | bool b => rfl
  | num m => rfl
  | str v => rfl

theorem resolveGo_append (j : Json) (ts : List (List Char)) (t : List Char) :
    resolveGo j (ts ++ [t]) = (resolveGo j ts).bind (fun w => resolveStep w t) := by
  induction ts generalizing j with
  | nil =>
    rw [List.nil_append, resolveGo_cons]
    have h0 : ∀ w : Json, resolveGo w [] = some w := fun w => by rw [resolveGo]
    simp [h0]
  | cons t2 ts2 ih =>
    rw [List.cons_append, resolveGo_cons, resolveGo_cons]
    rw [Option.bind_assoc]
    cases hs : resolveStep j t2 with
    | none => simp
    | some v => simp [ih v]

theorem parseNatChars_natDigits (n : Nat) : parseNatChars (natDigits n) = some n := by
  rw [parseNatChars]
  rw [if_pos]
  · rw [show (natDigits n).foldl (fun a c => 10 * a + (c.toNat - '0'.toNat)) 0
      = digitsVal (natDigits n) from rfl]
    rw [digitsVal_natDigits]
  · refine ⟨natDigits_ne_nil n, ?_⟩
    rw [List.all_eq_true]
    intro c hc
    exact natDigits_all_digits n c hc

theorem digit_ne_plus (c : Char) (h : c.isDigit = true) : c ≠ '+' := by
  intro hc
  subst hc
  exact absurd h (by decide)

theorem parse_index_natDigits (n : Nat) : parse_index (natDigits n) = some n := by
  rw [parse_index]
  rw [if_neg]
  · exact parseNatChars_natDigits n
  · push_neg
    obtain ⟨c, cs, hcons⟩ := List.exists_cons_of_ne_nil (natDigits_ne_nil n)
    constructor
    · rw [hcons]
      intro hplus
      simp only [List.head?_cons, Option.some.injEq] at hplus
      have hd : c.isDigit = true := natDigits_all_digits n c (hcons ▸ List.mem_cons_self c cs)
      exact digit_ne_plus c hd hplus
    · intro hzero
      have hn0 : n = 0 := natDigits_head_zero n hzero
      subst hn0
      rw [natDigits]
      decide

theorem slash_append_data (s k : String) :
    (s ++ "/" ++ k).data = s.data ++ '/' :: k.data := by
  rw [String.data_append, String.data_append]
  have hd : "/".data = ['/'] := by decide
  rw [hd]
  simp

theorem resolve_empty (d : Json) : resolve d "" = some d := by
  rw [resolve]
  rw [if_pos rfl]

theorem unescape_id (t : List Char) (h : ∀ c ∈ t, c ≠ '~') :
    replaceTilde0 (replaceTilde1 t) = t := by
  rw [replaceTilde1_id t h, replaceTilde0_id t h]

theorem resolve_extend (d w v : Json) (s k : String)
    (hres : resolve d s = some w)
    (hhead : s = "" ∨ s.data.head? = some '/')
    (hk : ∀ c ∈ k.data, c ≠ '/' ∧ c ≠ '~')
    (hstep : resolveStep w k.data = some v) :
    resolve d (s ++ "/" ++ k) = some v ∧ (s ++ "/" ++ k).data.head? = some '/' := by
  have hdata := slash_append_data s k
  have hne : (s ++ "/" ++ k) ≠ "" := by
    intro he
    have h2 : (s ++ "/" ++ k).data = [] := by rw [he]
    rw [hdata] at h2
    exact List.append_ne_nil_of_right_ne_nil _ (List.cons_ne_nil _ _) h2
  have hksl : ∀ c ∈ k.data, c ≠ '/' := fun c hc => (hk c hc).1
  have hktl : ∀ c ∈ k.data, c ≠ '~' := fun c hc => (hk c hc).2
  rcases hhead with rfl | hh
  · -- base path is empty: the new pointer is the single-token slash-k
    have hwd : d = w := by
      rw [resolve_empty] at hres
      injection hres
    subst hwd
    have hd0 : ("" ++ "/" ++ k) = "/" ++ k := rfl
    have hdata2 : ("/" ++ k).data = '/' :: k.data := by
      have h3 := slash_append_data "" k
      rw [hd0] at h3
      simpa using h3
    constructor
    · rw [hd0, resolve]
      rw [if_neg (by rw [← hd0]; exact hne)]
      rw [if_neg (by rw [hdata2]; simp)]
      rw [hdata2]
      rw [splitSlash]
      rw [if_pos rfl]
      rw [splitSlash_noSlash k.data hksl]
      simp only [List.drop_succ_cons, List.drop_zero, List.map_cons, List.map_nil]
      rw [unescape_id k.data hktl]
      rw [resolveGo_cons]
      rw [hstep]
      rw [Option.some_bind]
      rw [resolveGo]
    · rw [hd0, hdata2]
      rfl
  · -- base path already starts with a slash
    have hsne : s ≠ "" := by
      intro he
      rw [he] at hh
      exact absurd hh (by decide)
    have hres2 : resolveGo d (((splitSlash s.data).drop 1).map
        (fun t => replaceTilde0 (replaceTilde1 t))) = some w := by
      rw [resolve, if_neg hsne, if_neg (by rw [hh]; simp)] at hres
      exact hres
    have hsplit : splitSlash (s ++ "/" ++ k).data
        = splitSlash s.data ++ [k.data] := by
      rw [hdata, splitSlash_append, splitSlash_noSlash k.data hksl]
    obtain ⟨p, ps, hps⟩ : ∃ p ps, splitSlash s.data = p :: ps :=
      List.exists_cons_of_ne_nil (splitSlash_ne_nil s.data)
    constructor
    · rw [resolve]
      rw [if_neg hne]
      rw [if_neg (by
        rw [hdata]
        obtain ⟨c, cs, hcs⟩ := List.exists_cons_of_ne_nil
          (fun he : s.data = [] => hsne (String.ext (by rw [he])))
        rw [hcs]
        rw [hcs] at hh
        simp only [List.head?_cons, Option.some.injEq] at hh
        rw [hh]
        simp)]
      rw [hsplit, hps]
      rw [List.cons_append, List.drop_succ_cons, List.drop_zero]
      rw [List.map_append]
      rw [List.map_cons, List.map_nil]
      rw [unescape_id k.data hktl]
      rw [resolveGo_append]
      rw [hps] at hres2
      rw [List.drop_succ_cons, List.drop_zero] at hres2
      rw [hres2]
      rw [Option.some_bind]
      exact hstep
    · rw [hdata]
      obtain ⟨c, cs, hcs⟩ := List.exists_cons_of_ne_nil
        (fun he : s.data = [] => hsne (String.ext (by rw [he])))
      rw [hcs]
      rw [hcs] at hh
      simp only [List.head?_cons, Option.some.injEq] at hh
      rw [hh]
      rfl

theorem digit_ne_tilde (c : Char) (h : c.isDigit = true) : c ≠ '~' := by
  intro hc
  subst hc
  exact absurd h (by decide)

theorem objGet_of_mem (kvs : List (String × Json)) (k : String) (v : Json)
    (hmem : (k, v) ∈ kvs) (hnd : (kvs.map Prod.fst).Nodup) :
    objGet kvs k.data = some v := by
  induction kvs with
  | nil => cases hmem
  | cons kv0 rest ih =>
    rw [List.map_cons, List.nodup_cons] at hnd
    rcases List.mem_cons.mp hmem with heq | hrest
    · rw [objGet]
      rw [if_pos (by rw [← heq])]
      rw [← heq]
    · have hk0 : kv0.1 ≠ k := by
        intro he
        exact hnd.1 (he ▸ List.mem_map_of_mem Prod.fst hrest)
      rw [objGet]
      rw [if_neg (fun hd => hk0 (String.ext hd))]
      exact ih hrest hnd.2

theorem resolveStep_arr (xs : List Json) (i : Nat) :
    resolveStep (Json.arr xs) (natToString i).data = xs.get? i := by
  rw [resolveStep]
  rw [show (natToString i).data = natDigits i from rfl]
  rw [parse_index_natDigits]
  rw [Option.some_bind]

/-- Invariant carried by every traversal queue entry: its path resolves to
its value, its value has clean keys, and its path is empty or starts with a
slash. -/
def QInv (d : Json) (c : Json × String) : Prop :=
  resolve d c.2 = some c.1 ∧ keysCleanB ['/', '~'] c.1 = true
    ∧ (c.2 = "" ∨ c.2.data.head? = some '/')

/-- The record-level round-trip property: a present value field points back,
through the pointer, to a leaf with the same rendering and type. -/
def GoodRec4 (d : Json) (r : Rec) : Prop :=
  ∀ s, r.value = some s →
    ∃ v, resolve d r.pointer = some v ∧ renderLeaf v = some s ∧ jtypeOf v = r.jtype

theorem keysClean_chars (bad : List Char) (kvs : List (String × Json))
    (h : keysCleanB bad (Json.obj kvs) = true) (kv : String × Json) (hkv : kv ∈ kvs) :
    ∀ c ∈ kv.1.data, c ∉ bad :=
  (keysClean_obj_parts bad kvs h).2.1 kv hkv

theorem QInv_obj_child (d : Json) (kvs : List (String × Json)) (s : String)
    (hq : QInv d (Json.obj kvs, s)) (kv : String × Json) (hmem : kv ∈ kvs) :
    QInv d (kv.2, s ++ "/" ++ kv.1) := by
  obtain ⟨hres, hclean, hhead⟩ := hq
  obtain ⟨hdk, hsf, hcm⟩ := keysClean_obj_parts ['/', '~'] kvs hclean
  have hk : ∀ c ∈ kv.1.data, c ≠ '/' ∧ c ≠ '~' := by
    intro c hc
    have h2 := hsf kv hmem c hc
    constructor
    · intro he
      exact h2 (by rw [he]; simp)
    · intro he
      exact h2 (by rw [he]; simp)
  have hstep : resolveStep (Json.obj kvs) kv.1.data = some kv.2 := by
    rw [resolveStep]
    exact objGet_of_mem kvs kv.1 kv.2 hmem (distinctKeysB_nodup _ hdk)
  obtain ⟨h1, h2⟩ := resolve_extend d (Json.obj kvs) kv.2 s kv.1 hres hhead hk hstep
  exact ⟨h1, keysCleanM_mem _ kvs kv hmem hcm, Or.inr h2⟩

theorem QInv_arr_child (d : Json) (xs : List Json) (s : String)
    (hq : QInv d (Json.arr xs, s)) (iv : Nat × Json) (hmem : iv ∈ xs.enum) :
    QInv d (iv.2, s ++ "/" ++ natToString iv.1) := by
  obtain ⟨hres, hclean, hhead⟩ := hq
  have hk : ∀ c ∈ (natToString iv.1).data, c ≠ '/' ∧ c ≠ '~' := by
    intro c hc
    have hd := natDigits_all_digits iv.1 c hc
    exact ⟨digit_ne_slash c hd, digit_ne_tilde c hd⟩
  have hstep : resolveStep (Json.arr xs) (natToString iv.1).data = some iv.2 := by
    rw [resolveStep_arr]
    exact List.mem_enum_iff_get?.mp hmem
  obtain ⟨h1, h2⟩ := resolve_extend d (Json.arr xs) iv.2 s (natToString iv.1) hres hhead hk hstep
  have hcl : keysCleanB ['/', '~'] iv.2 = true := by
    rw [keysCleanB] at hclean
    refine keysCleanL_mem _ xs iv.2 ?_ hclean
    have := List.mem_map_of_mem Prod.snd hmem
    rwa [List.enum_map_snd] at this
  exact ⟨h1, hcl, Or.inr h2⟩

theorem mark_value_none (ident : Nat) (map : List (String × Json)) (s : String) (r : Rec)
    (hr : r ∈ (map.map (fun kv =>
      (if isObjB kv.2 then
        [Rec.mk ident (s ++ "/" ++ kv.1) none (jtypeOf (Json.obj map))] else [])
      ++ (if isArrB kv.2 then
        [Rec.mk ident (s ++ "/" ++ kv.1) none (jtypeOf (Json.obj map))] else []))).flatten) :
    r.value = none := by
  simp only [List.mem_flatten, List.mem_map] at hr
  obtain ⟨l, ⟨kv, hkv, rfl⟩, hrl⟩ := hr
  rcases List.mem_append.mp hrl with h1 | h1
  · split at h1
    · rw [List.mem_singleton.mp h1]
    · cases h1
  · split at h1
    · rw [List.mem_singleton.mp h1]
    · cases h1

theorem runLoop_inv (d : Json) (ident : Nat) :
    ∀ q pbuf, (∀ c ∈ q, QInv d c) → (∀ r ∈ pbuf, GoodRec4 d r) →
      (∀ c ∈ (runLoop ident q pbuf).1, QInv d c)
        ∧ (∀ r ∈ (runLoop ident q pbuf).2, GoodRec4 d r) := by
  intro q pbuf
  induction q, pbuf using runLoop.induct ident with
  | case1 pbuf =>
    intro hq hp
    rw [runLoop_nil]
    exact ⟨fun c hc => absurd hc (List.not_mem_nil c), hp⟩
  | case2 map s q pbuf ih =>
    intro hq hp
    rw [runLoop]
    refine ih ?_ ?_
    · intro c hc
      rcases List.mem_append.mp hc with h1 | h1
      · exact hq c (List.mem_cons_of_mem _ h1)
      · simp only [List.mem_map] at h1
        obtain ⟨kv, hkv, rfl⟩ := h1
        exact QInv_obj_child d map s (hq _ (List.mem_cons_self _ _)) kv hkv
    · intro r hr
      rcases List.mem_append.mp hr with h1 | h1
      · exact hp r h1
      · intro s0 hs0
        rw [mark_value_none ident map s r h1] at hs0
        cases hs0
  | case3 a s q pbuf ih =>
    intro hq hp
    rw [runLoop]
    refine ih ?_ hp
    intro c hc
    rcases List.mem_append.mp hc with h1 | h1
    · exact hq c (List.mem_cons_of_mem _ h1)
    · simp only [List.mem_map] at h1
      obtain ⟨iv, hiv, rfl⟩ := h1
      exact QInv_arr_child d a s (hq _ (List.mem_cons_self _ _)) iv hiv
  | case4 v s q pbuf =>
    intro hq hp
    rw [runLoop]
    refine ⟨fun c hc => hq c (List.mem_cons_of_mem _ hc), ?_⟩
    intro r hr
    rcases List.mem_append.mp hr with h1 | h1
    · exact hp r h1
    · rw [List.mem_singleton.mp h1]
      intro s0 hs0
      injection hs0 with hs1
      exact ⟨Json.str v, (hq _ (List.mem_cons_self _ _)).1, by rw [renderLeaf, hs1], rfl⟩
  | case5 v s q pbuf =>
    intro hq hp
    rw [runLoop]
    refine ⟨fun c hc => hq c (List.mem_cons_of_mem _ hc), ?_⟩
    intro r hr
    rcases List.mem_append.mp hr with h1 | h1
    · exact hp r h1
    · rw [List.mem_singleton.mp h1]
      intro s0 hs0
      injection hs0 with hs1
      exact ⟨Json.num v, (hq _ (List.mem_cons_self _ _)).1, by rw [renderLeaf, hs1], rfl⟩
  | case6 v s q pbuf =>
    intro hq hp
    rw [runLoop]
    refine ⟨fun c hc => hq c (List.mem_cons_of_mem _ hc), ?_⟩
    intro r hr
    rcases List.mem_append.mp hr with h1 | h1
    · exact hp r h1
    · rw [List.mem_singleton.mp h1]
      intro s0 hs0
      injection hs0 with hs1
      exact ⟨Json.bool v, (hq _ (List.mem_cons_self _ _)).1, by rw [renderLeaf, hs1], rfl⟩
  | case7 s q pbuf =>
    intro hq hp
    rw [runLoop]
    refine ⟨fun c hc => hq c (List.mem_cons_of_mem _ hc), ?_⟩
    intro r hr
    rcases List.mem_append.mp hr with h1 | h1
    · exact hp r h1
    · rw [List.mem_singleton.mp h1]
      intro s0 hs0
      injection hs0 with hs1
      exact ⟨Json.null, (hq _ (List.mem_cons_self _ _)).1, by rw [renderLeaf, hs1], rfl⟩

theorem parseNextIter_inv (d : Json) (ident : Nat) :
    ∀ st : List (Json × String) × List Rec,
      (∀ c ∈ st.1, QInv d c) → (∀ r ∈ st.2, GoodRec4 d r) →
      ∀ r ∈ parseNextIter ident st, GoodRec4 d r := by
  intro st
  induction st using parseNextIter.induct ident with
  | case1 st snd h =>
    intro hq hp r hr
    rw [parseNextIter_unfold] at hr
    rw [h] at hr
    simp at hr
  | case2 st r0 st2 h ih =>
    intro hq hp r hr
    rw [parseNextIter_unfold] at hr
    rw [h] at hr
    have hf : (runLoop ident st.1 st.2).2.getLast? = some r0 := by
      have h2 := congrArg Prod.fst h
      simpa [parse_next] using h2
    have hs : st2 = ((runLoop ident st.1 st.2).1, (runLoop ident st.1 st.2).2.dropLast) := by
      have h2 := congrArg Prod.snd h
      simpa [parse_next] using h2.symm
    have hinv := runLoop_inv d ident st.1 st.2 hq hp
    simp only [List.mem_cons] at hr
    rcases hr with rfl | hr2
    · exact hinv.2 r (List.mem_of_mem_getLast? hf)
    · refine ih ?_ ?_ r hr2
      · rw [hs]
        exact hinv.1
      · rw [hs]
        intro r2 hr3
        exact hinv.2 r2 (List.mem_of_mem_dropLast hr3)

/-- C4 amended: with slash-free, tilde-free, pairwise-distinct object keys,
every record with a present value field points back, through its pointer, to
a leaf of the document whose rendering is the value field and whose
structural type is the type field (the pointer-construction and
pointer-lookup round trip holds on that key fragment). -/
theorem claim_C4_amended (d : Json) (ident : Nat)
    (h : keysCleanB ['/', '~'] d = true) (r : Rec)
    (hr : r ∈ parseNextAll ident "" d) (s : String) (hv : r.value = some s) :
    ∃ v, resolve d r.pointer = some v ∧ renderLeaf v = some s ∧ jtypeOf v = r.jtype := by
  have hinit : ∀ c ∈ ([(d, "")] : List (Json × String)), QInv d c := by
    intro c hc
    rw [List.mem_singleton.mp hc]
    exact ⟨resolve_empty d, h, Or.inl rfl⟩
  have hpb : ∀ r2 ∈ ([] : List Rec), GoodRec4 d r2 := by
    intro r2 hr2
    cases hr2
  exact parseNextIter_inv d ident ([(d, "")], []) hinit hpb r hr s hv

/-- The record-shape dichotomy: a record lacks a value exactly when it is a
container marker, and those carry the Object tag of the popped parent. -/
def GoodRec8 (r : Rec) : Prop := r.value = none ↔ r.jtype = JType.Object

theorem mark_shape8 (ident : Nat) (map : List (String × Json)) (s : String) (r : Rec)
    (hr : r ∈ (map.map (fun kv =>
      (if isObjB kv.2 then
        [Rec.mk ident (s ++ "/" ++ kv.1) none (jtypeOf (Json.obj map))] else [])
      ++ (if isArrB kv.2 then
        [Rec.mk ident (s ++ "/" ++ kv.1) none (jtypeOf (Json.obj map))] else []))).flatten) :
    r.value = none ∧ r.jtype = JType.Object := by
  simp only [List.mem_flatten, List.mem_map] at hr
  obtain ⟨l, ⟨kv, hkv, rfl⟩, hrl⟩ := hr
  rcases List.mem_append.mp hrl with h1 | h1
  · split at h1
    · rw [List.mem_singleton.mp h1]
      exact ⟨rfl, rfl⟩
    · cases h1
  · split at h1
    · rw [List.mem_singleton.mp h1]
      exact ⟨rfl, rfl⟩
    · cases h1

theorem runLoop_inv8 (ident : Nat) :
    ∀ q pbuf, (∀ r ∈ pbuf, GoodRec8 r) →
      ∀ r ∈ (runLoop ident q pbuf).2, GoodRec8 r := by
  intro q pbuf
  induction q, pbuf using runLoop.induct ident with
  | case1 pbuf =>
    intro hp
    rw [runLoop_nil]
    exact hp
  | case2 map s q pbuf ih =>
    intro hp
    rw [runLoop]
    refine ih ?_
    intro r hr
    rcases List.mem_append.mp hr with h1 | h1
    · exact hp r h1
    · have h2 := mark_shape8 ident map s r h1
      exact ⟨fun _ => h2.2, fun _ => h2.1⟩
  | case3 a s q pbuf ih =>
    intro hp
    rw [runLoop]
    exact ih hp
  | case4 v s q pbuf =>
    intro hp
    rw [runLoop]
    intro r hr
    rcases List.mem_append.mp hr with h1 | h1
    · exact hp r h1
    · rw [List.mem_singleton.mp h1]
      refine ⟨fun h2 => ?_, fun h2 => ?_⟩
      · cases h2
      · cases h2
  | case5 v s q pbuf =>
    intro hp
    rw [runLoop]
    intro r hr
    rcases List.mem_append.mp hr with h1 | h1
    · exact hp r h1
    · rw [List.mem_singleton.mp h1]
      refine ⟨fun h2 => ?_, fun h2 => ?_⟩
      · cases h2
      · cases h2
  | case6 v s q pbuf =>
    intro hp
    rw [runLoop]
    intro r hr
    rcases List.mem_append.mp hr with h1 | h1
    · exact hp r h1
    · rw [List.mem_singleton.mp h1]
      refine ⟨fun h2 => ?_, fun h2 => ?_⟩
      · cases h2
      · cases h2
  | case7 s q pbuf =>
    intro hp
    rw [runLoop]
    intro r hr
    rcases List.mem_append.mp hr with h1 | h1
    · exact hp r h1
    · rw [List.mem_singleton.mp h1]
      refine ⟨fun h2 => ?_, fun h2 => ?_⟩
      · cases h2
      · cases h2

theorem parseNextIter_inv8 (ident : Nat) :
    ∀ st : List (Json × String) × List Rec,
      (∀ r ∈ st.2, GoodRec8 r) →
      ∀ r ∈ parseNextIter ident st, GoodRec8 r := by
  intro st
  induction st using parseNextIter.induct ident with
  | case1 st snd h =>
    intro hp r hr
    rw [parseNextIter_unfold] at hr
    rw [h] at hr
    simp at hr
  | case2 st r0 st2 h ih =>
    intro hp r hr
    rw [parseNextIter_unfold] at hr
    rw [h] at hr
    have hf : (runLoop ident st.1 st.2).2.getLast? = some r0 := by
      have h2 := congrArg Prod.fst h
      simpa [parse_next] using h2
    have hs : st2 = ((runLoop ident st.1 st.2).1, (runLoop ident st.1 st.2).2.dropLast) := by
      have h2 := congrArg Prod.snd h
      simpa [parse_next] using h2.symm
    simp only [List.mem_cons] at hr
    rcases hr with rfl | hr2
    · exact runLoop_inv8 ident st.1 st.2 hp r (List.mem_of_mem_getLast? hf)
    · refine ih ?_ r hr2
      rw [hs]
      intro r2 hr3
      exact runLoop_inv8 ident st.1 st.2 hp r2 (List.mem_of_mem_dropLast hr3)

/-- C8 amended: in the record structure the value-less records are exactly
the Object-tagged container markers (so a container record's value field is
None, never an empty string), but rendering substitutes no distinguishable
placeholder: the BlockKind display of an absent value is the empty string;
the NO_VALUE placeholder of `write` appears only for a failed lookup and is
distinct from the NULL rendering of a null leaf. -/
theorem claim_C8_amended :
    (∀ (ident : Nat) (base : String) (d : Json) (r : Rec),
      r ∈ parseNextAll ident base d → (r.value = none ↔ r.jtype = JType.Object))
    ∧ blockDisplay (BlockKind.value none) = ""
    ∧ renderValue none = "NO_VALUE"
    ∧ renderValue (some Json.null) = "NULL"
    ∧ ("NO_VALUE" : String) ≠ "NULL" := by
  refine ⟨?_, rfl, rfl, rfl, by decide⟩
  intro ident base d r hr
  refine parseNextIter_inv8 ident ([(d, base)], []) ?_ r hr
  intro r2 hr2
  cases hr2

/-- Witness for C4 at the one-leaf document mapping key a to 1: its record
for pointer slash-a round-trips through the lookup. -/
theorem claim_C4_amended_witness :
    keysCleanB ['/', '~'] (Json.obj [("a", Json.num 1)]) = true
    ∧ Rec.mk 0 "/a" (some "1") JType.Number ∈ parseNextAll 0 "" (Json.obj [("a", Json.num 1)])
    ∧ ∃ v, resolve (Json.obj [("a", Json.num 1)]) "/a" = some v
        ∧ renderLeaf v = some "1" ∧ jtypeOf v = JType.Number := by
  have hclean : keysCleanB ['/', '~'] (Json.obj [("a", Json.num 1)]) = true := by
    simp [keysCleanB, keysCleanM, keysCleanL, distinctKeysB]
  have heval : parseNextAll 0 "" (Json.obj [("a", Json.num 1)])
      = [Rec.mk 0 "/a" (some "1") JType.Number] := by
    have h1 : parse_next 0 ([(Json.obj [("a", Json.num 1)], "")], [])
        = (some (Rec.mk 0 "/a" (some "1") JType.Number), ([], [])) := by
      simp [parse_next, runLoop, jtypeOf, isObjB, isArrB, intToString_one]
    have h3 : parse_next 0 (([], []) : List (Json × String) × List Rec) = (none, ([], [])) := by
      simp [parse_next, runLoop]
    rw [parseNextAll, parseNextIter_unfold]
    simp only [h1]
    rw [parseNextIter_unfold]
    simp only [h3]
  have hmem : Rec.mk 0 "/a" (some "1") JType.Number
      ∈ parseNextAll 0 "" (Json.obj [("a", Json.num 1)]) := by
    rw [heval]
    exact List.mem_singleton_self _
  exact ⟨hclean, hmem, claim_C4_amended _ 0 hclean _ hmem "1" rfl⟩

/-- Witness for C8 at the document whose key a holds an empty object: the
container record for slash-a has no value and the Object tag. -/
theorem claim_C8_amended_witness :
    Rec.mk 0 "/a" none JType.Object ∈ parseNextAll 0 "" (Json.obj [("a", Json.obj [])])
    ∧ ((Rec.mk 0 "/a" none JType.Object).value = none
        ↔ (Rec.mk 0 "/a" none JType.Object).jtype = JType.Object) := by
  have heval : parseNextAll 0 "" (Json.obj [("a", Json.obj [])])
      = [Rec.mk 0 "/a" none JType.Object] := by
    have h1 : parse_next 0 ([(Json.obj [("a", Json.obj [])], "")], [])
        = (some (Rec.mk 0 "/a" none JType.Object), ([], [])) := by
      simp [parse_next, runLoop, jtypeOf, isObjB, isArrB]
    have h3 : parse_next 0 (([], []) : List (Json × String) × List Rec) = (none, ([], [])) := by
      simp [parse_next, runLoop]
    rw [parseNextAll, parseNextIter_unfold]
    simp only [h1]
    rw [parseNextIter_unfold]
    simp only [h3]
  have hmem : Rec.mk 0 "/a" none JType.Object
      ∈ parseNextAll 0 "" (Json.obj [("a", Json.obj [])]) := by
    rw [heval]
    exact List.mem_singleton_self _
  exact ⟨hmem, claim_C8_amended.1 0 "" _ _ hmem⟩
